import Mathlib

/-!
Shallow embedding of `kolm/normalize.py` (KoLM), a Korean text-normalization
pipeline over the Sejong written corpus.

Strings are modelled as `List Char`.  Each `re.sub` call of the source is
modelled by a dedicated scanning function faithful to Python `re` semantics
for that particular pattern: matches are found left to right and do not
overlap, lookaround assertions are evaluated against the subject string
(which `re.sub` never mutates while scanning), and replacements are spliced
into a fresh output buffer.  External collaborators of the pipeline
(`korean.NumberWord().read`, `hanja.translate`, `korean.Loanword().read`)
are parameters of the corresponding definitions.  Python list indexing that
can raise `IndexError` (`numlist[0]` on an empty list) is modelled with
`Option`.
-/

namespace KoLM

/-- Korean syllable block, regex class `[가-힣]` (U+AC00 to U+D7A3). -/
def isHang (c : Char) : Bool := 0xAC00 ≤ c.toNat && c.toNat ≤ 0xD7A3

/-- Capital Latin letter, regex class `[A-Z]`. -/
def isUpper (c : Char) : Bool := 65 ≤ c.toNat && c.toNat ≤ 90

/-- Small Latin letter, regex class `[a-z]`. -/
def isLower (c : Char) : Bool := 97 ≤ c.toNat && c.toNat ≤ 122

/-- Latin letter, regex class `[A-Za-z]`. -/
def isLatin (c : Char) : Bool := isUpper c || isLower c

/-- ASCII digit, regex class `\d` (the corpus is ASCII-digit only). -/
def isDigitCh (c : Char) : Bool := 48 ≤ c.toNat && c.toNat ≤ 57

/-- Sentence-final punctuation, regex class `[\.\?\!]`. -/
def isPunctMark (c : Char) : Bool := c = '.' || c = '?' || c = '!'

/-- Whitespace: the character set accepted by Python's `str.isspace` and by
the regex class `\s` on `str` subjects (ASCII whitespace, the C1 separators,
NEL, NBSP and the Unicode space block). -/
def isSpaceCh (c : Char) : Bool :=
  c = ' ' || c = '\t' || c = '\n' ||
  c.toNat = 0x0B || c.toNat = 0x0C || c.toNat = 0x0D ||
  (0x1C ≤ c.toNat && c.toNat ≤ 0x1F) || c.toNat = 0x85 || c.toNat = 0xA0 ||
  c.toNat = 0x1680 || (0x2000 ≤ c.toNat && c.toNat ≤ 0x200A) ||
  c.toNat = 0x2028 || c.toNat = 0x2029 || c.toNat = 0x202F ||
  c.toNat = 0x205F || c.toNat = 0x3000

/-- Line boundary characters of Python's `str.splitlines`. -/
def isLineBrk (c : Char) : Bool :=
  c = '\n' || c.toNat = 0x0B || c.toNat = 0x0C || c.toNat = 0x0D ||
  (0x1C ≤ c.toNat && c.toNat ≤ 0x1E) || c.toNat = 0x85 ||
  c.toNat = 0x2028 || c.toNat = 0x2029

/-- Python `line.isspace()`: nonempty and all characters whitespace. -/
def strIsSpace (l : List Char) : Bool := !l.isEmpty && l.all isSpaceCh

/-- The appending guard shared by `bySentence` (lines 59-65) and `normalize`
(lines 118-123): `if not line.isspace(): if line: body.append(line)`. -/
def keepLine (l : List Char) : Bool := !strIsSpace l && !l.isEmpty

/-! ## The segmenter `bySentence` (normalize.py lines 36-67) -/

/-- Line 41, `re.sub('…', '.', line)`: map the ellipsis to a period. -/
def subEllipsis (l : List Char) : List Char :=
  l.map fun c => if c = '…' then '.' else c

/-- Line 45, `re.sub('(?<=\.[A-Z])\.', '', line)`: delete a period whose two
preceding subject characters are a period and a capital.  The two arguments
carry the subject characters at offsets -2 and -1. -/
def subInitialDot1 : Option Char → Option Char → List Char → List Char
  | _, _, [] => []
  | p2, p1, c :: rest =>
    if c = '.' && p2 = some '.' && p1.any isUpper then
      subInitialDot1 p1 (some c) rest
    else c :: subInitialDot1 p1 (some c) rest

/-- Line 46, `re.sub('(?<=[A-Z])\.(?=[A-Z])', '', line)`: delete a period
between two capitals.  The argument carries the subject character at -1. -/
def subInitialDot2 : Option Char → List Char → List Char
  | _, [] => []
  | p1, c :: rest =>
    if c = '.' && p1.any isUpper && rest.head?.any isUpper then
      subInitialDot2 (some c) rest
    else c :: subInitialDot2 (some c) rest

/-- Lines 49-51, `re.sub('\.+', '.', line)` and the `?`/`!` analogues:
collapse each maximal run of `p` to a single `p` (the model keeps the last
character of the run). -/
def collapseRun (p : Char) : List Char → List Char
  | [] => []
  | c :: rest =>
    if c = p && rest.head? = some p then collapseRun p rest
    else c :: collapseRun p rest

/-- Line 55, `re.sub('(?<=[\.\?\!])[ \,]', '\n', line)`: a space or comma
preceded by sentence-final punctuation becomes a newline. -/
def subPunctSpace : Option Char → List Char → List Char
  | _, [] => []
  | p1, c :: rest =>
    (if (c = ' ' || c = ',') && p1.any isPunctMark then '\n' else c)
      :: subPunctSpace (some c) rest

/-- Line 56, `re.sub('(?<=[가-힣])[\.\?\!](?=[가-힣])', '.\n', line)`:
sentence-final punctuation between two Korean syllables becomes `.`
followed by a newline. -/
def subHangPunctHang : Option Char → List Char → List Char
  | _, [] => []
  | p1, c :: rest =>
    if isPunctMark c && p1.any isHang && rest.head?.any isHang then
      '.' :: '\n' :: subHangPunctHang (some c) rest
    else c :: subHangPunctHang (some c) rest

/-- Worker for Python `str.splitlines` (line 57): `cur` is the reversed
current segment. A trailing boundary does not produce a final empty line. -/
def splitlinesGo : List Char → List Char → List (List Char)
  | cur, [] => [cur.reverse]
  | cur, '\r' :: '\n' :: rest =>
    cur.reverse :: (if rest.isEmpty then [] else splitlinesGo [] rest)
  | cur, c :: rest =>
    if isLineBrk c then
      cur.reverse :: (if rest.isEmpty then [] else splitlinesGo [] rest)
    else splitlinesGo (c :: cur) rest

/-- Python `str.splitlines`; the empty string yields no lines. -/
def splitlines : List Char → List (List Char)
  | [] => []
  | l => splitlinesGo [] l

/-- The whole per-line body of `bySentence` (lines 39-65): the chain of
rewrites, the split, and the emptiness/whitespace filter. -/
def bySentenceLine (line : List Char) : List (List Char) :=
  (splitlines
    (subHangPunctHang none
      (subPunctSpace none
        (collapseRun '!'
          (collapseRun '?'
            (collapseRun '.'
              (subInitialDot2 none
                (subInitialDot1 none none
                  (subEllipsis line))))))))).filter keepLine

/-- `bySentence` (lines 36-67): process every line, appending all surviving
segments in order. -/
def bySentence (corpus : List (List Char)) : List (List Char) :=
  corpus.flatMap bySentenceLine

/-! ## The offset-safe replacement primitive (lines 273-275) -/

/-- Lines 273-275 `replaceSubstring`: `line[0:start] + newstr + line[end:]`. -/
def replaceSubstring (line newstr : List Char) (ituple : Nat × Nat) : List Char :=
  line.take ituple.1 ++ newstr ++ line.drop ituple.2

/-! ## Digit reading, `readNumber` (lines 128-177) -/

/-- Length of the match of `\d+[\.]?\d*` at the head of a list that starts
with a digit: the greedy digit run, then `[\.]?` consumes a period whenever
one is present, then a second greedy digit run. -/
def numLenDigits (l : List Char) : Nat :=
  match l.drop (l.takeWhile isDigitCh).length with
  | '.' :: r2 => (l.takeWhile isDigitCh).length + 1 + (r2.takeWhile isDigitCh).length
  | _ => (l.takeWhile isDigitCh).length

/-- Length of the match of `([+-]?\d+)[\.]?\d*` starting exactly at the head
of `l`, when there is one: `[+-]?` only commits to a sign when a digit
follows it. -/
def numTokenLen (l : List Char) : Option Nat :=
  match l with
  | [] => none
  | c :: rest =>
    if isDigitCh c then some (numLenDigits (c :: rest))
    else if (c = '+' || c = '-') && rest.head?.any isDigitCh then
      some (1 + numLenDigits rest)
    else none

theorem dropWhile_length_le (p : Char → Bool) (l : List Char) :
    (l.dropWhile p).length ≤ l.length :=
  (List.dropWhile_suffix p).sublist.length_le

theorem one_le_numLenDigits (c : Char) (rest : List Char) (h : isDigitCh c = true) :
    1 ≤ numLenDigits (c :: rest) := by
  unfold numLenDigits
  split <;> simp [List.takeWhile_cons, h] <;> omega

theorem numTokenLen_one_le {l : List Char} {n : Nat} (h : numTokenLen l = some n) :
    1 ≤ n := by
  cases l with
  | nil => simp [numTokenLen] at h
  | cons c rest =>
    simp only [numTokenLen] at h
    by_cases hc : isDigitCh c = true
    · rw [if_pos hc] at h
      cases h
      exact one_le_numLenDigits c rest hc
    · rw [if_neg hc] at h
      by_cases hs : ((c = '+' || c = '-') && rest.head?.any isDigitCh) = true
      · rw [if_pos hs] at h
        cases h
        omega
      · rw [if_neg hs] at h
        cases h

/-- `re.finditer('([+-]?\d+)[\.]?\d*', line)` (lines 131 and 140): the list
of span/matched-text pairs, scanning left to right without overlap; `i` is
the subject offset of the head of `l`. -/
def finditerNum (i : Nat) (l : List Char) : List ((Nat × Nat) × List Char) :=
  match l with
  | [] => []
  | c :: rest =>
    match h : numTokenLen (c :: rest) with
    | some n =>
      ((i, i + n), (c :: rest).take n) :: finditerNum (i + n) ((c :: rest).drop n)
    | none => finditerNum (i + 1) rest
termination_by l.length
decreasing_by
  · have h1 := numTokenLen_one_le h
    simp only [List.length_drop, List.length_cons]
    omega
  · simp

/-- `re.search('\d+', num).group()` (line 150): the first maximal digit run. -/
def firstDigitRun : List Char → Option (List Char)
  | [] => none
  | c :: rest =>
    if isDigitCh c then some (c :: rest.takeWhile isDigitCh)
    else firstDigitRun rest

/-- `re.search('\d+(?=\.)', num).group()` (line 156): the first maximal
digit run immediately followed by a period. -/
def firstDigitRunBeforeDot (l : List Char) : Option (List Char) :=
  match l with
  | [] => none
  | c :: rest =>
    if isDigitCh c then
      if (rest.dropWhile isDigitCh).head? = some '.' then
        some (c :: rest.takeWhile isDigitCh)
      else firstDigitRunBeforeDot (rest.dropWhile isDigitCh)
    else firstDigitRunBeforeDot rest
termination_by l.length
decreasing_by
  · have := dropWhile_length_le isDigitCh rest
    simp only [List.length_cons]
    omega
  · simp

/-- `re.sub('\d+', r, num)` (line 152): replace every maximal digit run. -/
def subDigitRuns (r : List Char) (l : List Char) : List Char :=
  match l with
  | [] => []
  | c :: rest =>
    if isDigitCh c then r ++ subDigitRuns r (rest.dropWhile isDigitCh)
    else c :: subDigitRuns r rest
termination_by l.length
decreasing_by
  · have := dropWhile_length_le isDigitCh rest
    simp only [List.length_cons]
    omega
  · simp

/-- `re.sub('\d+(?=\.)', r, num)` (line 158): replace every maximal digit
run that is immediately followed by a period; runs not followed by a period
are kept whole. -/
def subDigitRunsBeforeDot (r : List Char) (l : List Char) : List Char :=
  match l with
  | [] => []
  | c :: rest =>
    if isDigitCh c then
      if (rest.dropWhile isDigitCh).head? = some '.' then
        r ++ subDigitRunsBeforeDot r (rest.dropWhile isDigitCh)
      else (c :: rest.takeWhile isDigitCh) ++ subDigitRunsBeforeDot r (rest.dropWhile isDigitCh)
    else c :: subDigitRunsBeforeDot r rest
termination_by l.length
decreasing_by
  · have := dropWhile_length_le isDigitCh rest
    simp only [List.length_cons]
    omega
  · have := dropWhile_length_le isDigitCh rest
    simp only [List.length_cons]
    omega
  · simp

/-- `re.sub(a, b, s)` for a single-character pattern and single-character
replacement (lines 161-171): a pointwise map. -/
def subChar (a b : Char) (l : List Char) : List Char :=
  l.map fun c => if c = a then b else c

/-- The value Python's `int` gives on a digit string (line 151). -/
def digitsToNat (l : List Char) : Nat :=
  l.foldl (fun n c => 10 * n + (c.toNat - 48)) 0

/-- Lines 148-171, the per-token body of `readNumber`'s loop: `num` is the
matched token text and `reader` is `korean.NumberWord(·).read()`.  `none`
models the `AttributeError` Python would raise if the inner `re.search`
found nothing to take `.group()` of. -/
def readNumToken (reader : Nat → List Char) (num : List Char) : Option (List Char) :=
  if num.any (fun c => c = '.') then
    match firstDigitRunBeforeDot num with
    | none => none
    | some ds =>
      some (subChar '9' '구' (subChar '8' '팔' (subChar '7' '칠' (subChar '6' '육'
        (subChar '5' '오' (subChar '4' '사' (subChar '3' '삼' (subChar '2' '이'
          (subChar '1' '일' (subChar '0' '영' (subChar '.' '점'
            (subDigitRunsBeforeDot (reader (digitsToNat ds)) num))))))))))))
  else
    match firstDigitRun num with
    | none => none
    | some ds => some (subDigitRuns (reader (digitsToNat ds)) num)

/-- Lines 135-176, the loop body of `readNumber`: the loop runs a fixed
number of times; each iteration re-finds all matches against the current
line, takes the first, rewrites it, and splices it back at its span.
`none` models the `IndexError` of `numidx[0]` when no match is left. -/
def readNumberLoop (reader : Nat → List Char) : Nat → List Char → Option (List Char)
  | 0, line => some line
  | k + 1, line =>
    match finditerNum 0 line with
    | [] => none
    | (span, num) :: _ =>
      match readNumToken reader num with
      | none => none
      | some numNew => readNumberLoop reader k (replaceSubstring line numNew span)

/-- Lines 128-177 `readNumber`: iterate once per match found in the initial
scan. -/
def readNumber (reader : Nat → List Char) (line : List Char) : Option (List Char) :=
  let numlist := finditerNum 0 line
  if 0 < numlist.length then readNumberLoop reader numlist.length line else some line

/-! ## Hanja reading, `readHanja` (lines 180-186) -/

/-- CJK ideograph, regex class `[一-龥豈-龎]`: the literal characters in the
source are U+4E00, U+9FA5, U+8C48 and U+9F8E, so the second interval is
contained in the first. -/
def isHanja (c : Char) : Bool :=
  (0x4E00 ≤ c.toNat && c.toNat ≤ 0x9FA5) || (0x8C48 ≤ c.toNat && c.toNat ≤ 0x9F8E)

/-- `re.search('[cls]+', line)` for a character class (line 181): scan left
to right for a first nonempty run. -/
def searchClassPlus (cls : Char → Bool) : List Char → Bool
  | [] => false
  | c :: rest => cls c || searchClassPlus cls rest

/-- `re.search('[가-힣]+[一-龥豈-龎]+', line)` (line 182): scan for a Korean
syllable run immediately followed by an ideograph run. -/
def searchHangHanja : List Char → Bool
  | [] => false
  | [_] => false
  | a :: b :: rest => (isHang a && isHanja b) || searchHangHanja (b :: rest)

/-- `re.sub('[一-龥豈-龎]+', '', line)` (line 183): delete every ideograph
run. -/
def subHanjaRuns : List Char → List Char
  | [] => []
  | c :: rest => if isHanja c then subHanjaRuns rest else c :: subHanjaRuns rest

/-- Lines 180-186 `readHanja`; `translate` is
`hanja.translate(·, 'substitution')`. -/
def readHanja (translate : List Char → List Char) (line : List Char) : List Char :=
  if searchClassPlus isHanja line then
    if searchHangHanja line then subHanjaRuns line
    else translate line
  else line

/-! ## Acronym reading, `readABC` (lines 189-241) -/

/-- The test of `[A-Z](?=[^a-z])` at one position: a capital whose following
subject character exists and is not a small letter. -/
def abcCond (c : Char) (nxt : Option Char) : Bool :=
  isUpper c && nxt.any fun d => !isLower d

/-- `re.finditer('[A-Z](?=[^a-z])', line)` (lines 192 and 201): every match
is a single character; the zero-width lookahead consumes nothing. -/
def finditerABC : Nat → List Char → List ((Nat × Nat) × Char)
  | _, [] => []
  | i, c :: rest =>
    if abcCond c rest.head? then ((i, i + 1), c) :: finditerABC (i + 1) rest
    else finditerABC (i + 1) rest

/-- `re.sub(a, b, s)` for a single-character pattern and a string
replacement: a pointwise expansion. -/
def subCharStr (a : Char) (b : List Char) (l : List Char) : List Char :=
  l.flatMap fun c => if c = a then b else [c]

/-- The acronym letter table of lines 209-234, in source order. -/
def ABCTable : List (Char × List Char) :=
  [('A', "에이".toList), ('B', "비".toList), ('C', "씨".toList), ('D', "디".toList),
   ('E', "이".toList), ('F', "에프".toList), ('G', "지".toList), ('H', "에이치".toList),
   ('I', "아이".toList), ('J', "제이".toList), ('K', "케이".toList), ('L', "엘".toList),
   ('M', "엠".toList), ('N', "엔".toList), ('O', "오".toList), ('P', "피".toList),
   ('Q', "큐".toList), ('R', "알".toList), ('S', "에스".toList), ('T', "티".toList),
   ('U', "유".toList), ('V', "브이".toList), ('W', "더블유".toList), ('X', "엑스".toList),
   ('Y', "와이".toList), ('Z', "지".toList)]

/-- Lines 209-234: the twenty-six chained `re.sub` single-letter rewrites
applied to the matched text, in source order. -/
def subABCLetters (s : List Char) : List Char :=
  ABCTable.foldl (fun acc p => subCharStr p.1 p.2 acc) s

/-- Lines 196-239, the loop body of `readABC` (same discipline as
`readNumber`). -/
def readABCLoop : Nat → List Char → Option (List Char)
  | 0, line => some line
  | k + 1, line =>
    match finditerABC 0 line with
    | [] => none
    | (span, c) :: _ => readABCLoop k (replaceSubstring line (subABCLetters [c]) span)

/-- Lines 189-241 `readABC`. -/
def readABC (line : List Char) : Option (List Char) :=
  let ABClist := finditerABC 0 line
  if 0 < ABClist.length then readABCLoop ABClist.length line else some line

/-! ## Foreign-word reading, `readAlphabet` (lines 244-270) -/

/-- `re.finditer('[A-Za-z]+', line)` (lines 247 and 256): maximal Latin
runs. -/
def finditerAlpha (i : Nat) (l : List Char) : List ((Nat × Nat) × List Char) :=
  match l with
  | [] => []
  | c :: rest =>
    if isLatin c then
      ((i, i + (c :: rest.takeWhile isLatin).length), c :: rest.takeWhile isLatin)
        :: finditerAlpha (i + (c :: rest.takeWhile isLatin).length) (rest.dropWhile isLatin)
    else finditerAlpha (i + 1) rest
termination_by l.length
decreasing_by
  · have := dropWhile_length_le isLatin rest
    simp only [List.length_cons]
    omega
  · simp

/-- Lines 251-269, the loop body of `readAlphabet`; `loan` is
`korean.Loanword(·, lang).read()`. -/
def readAlphabetLoop (loan : List Char → List Char) : Nat → List Char → Option (List Char)
  | 0, line => some line
  | k + 1, line =>
    match finditerAlpha 0 line with
    | [] => none
    | (span, w) :: _ => readAlphabetLoop loan k (replaceSubstring line (loan w) span)

/-- Lines 244-270 `readAlphabet` (the caller at line 113 fixes the language
tag to 'ita'). -/
def readAlphabet (loan : List Char → List Char) (line : List Char) : Option (List Char) :=
  let alphalist := finditerAlpha 0 line
  if 0 < alphalist.length then readAlphabetLoop loan alphalist.length line else some line

/-! ## Jamo reading and terminal stripping (lines 278-301) -/

/-- The jamo-name table of lines 284-300, in source order: eleven plain
consonants and five tense consonants. -/
def jamoTable : List (Char × List Char) :=
  [('ㄱ', "기역".toList), ('ㄴ', "니은".toList), ('ㄷ', "디귿".toList), ('ㄹ', "리을".toList),
   ('ㅁ', "미음".toList), ('ㅂ', "비읍".toList), ('ㅅ', "시옷".toList), ('ㅇ', "이응".toList),
   ('ㅈ', "지읒".toList), ('ㅊ', "치읓".toList), ('ㅎ', "히읗".toList),
   ('ㄲ', "쌍기역".toList), ('ㄸ', "쌍디귿".toList), ('ㅃ', "쌍비읍".toList),
   ('ㅆ', "쌍시옷".toList), ('ㅉ', "쌍지읒".toList)]

/-- Lines 283-301 `readHangulLetter`: sixteen chained `re.sub` rewrites, in
source order. -/
def readHangulLetter (line : List Char) : List Char :=
  jamoTable.foldl (fun acc p => subCharStr p.1 p.2 acc) line

/-- Lines 278-280 `removeNonHangul`, `re.sub('[^가-힣\s]*', '', line)`:
delete every character that is neither a Korean syllable nor whitespace. -/
def removeNonHangul : List Char → List Char
  | [] => []
  | c :: rest =>
    if isHang c || isSpaceCh c then c :: removeNonHangul rest
    else removeNonHangul rest

/-! ## The deletion and substitution rules of `normalize` (lines 70-125) -/

/-- Opening bracket class `[\(\[<〈《【〔]` of lines 74 and 81. -/
def isOpenBr (c : Char) : Bool :=
  c = '(' || c = '[' || c = '<' || c = '〈' || c = '《' || c = '【' || c = '〔'

/-- Closing class `[\)\.\]>〉》】〕]` of line 74. -/
def isCloseBr74 (c : Char) : Bool :=
  c = ')' || c = '.' || c = ']' || c = '>' || c = '〉' || c = '》' || c = '】' || c = '〕'

/-- Closing class `[\)\]>〉》】〕]` of line 81. -/
def isCloseBr81 (c : Char) : Bool :=
  c = ')' || c = ']' || c = '>' || c = '〉' || c = '》' || c = '】' || c = '〕'

/-- Class `[ㄱ-ㅎ가-힣]` of line 81: a compatibility consonant jamo or a
Korean syllable. -/
def isJamoOrHang (c : Char) : Bool :=
  (0x3131 ≤ c.toNat && c.toNat ≤ 0x314E) || isHang c

/-- Line 74, `re.sub('^\s*[\(\[<〈《【〔]*\s*\d+[\)\.\]>〉》】〕](?=\D+)', '',
line)`: delete a leading bracketed number; the lookahead demands a following
non-digit character.  All components parse deterministically because the
character classes are pairwise disjoint. -/
def subLeadingNumber (l : List Char) : List Char :=
  match (((l.dropWhile isSpaceCh).dropWhile isOpenBr).dropWhile isSpaceCh).takeWhile
      isDigitCh,
    (((l.dropWhile isSpaceCh).dropWhile isOpenBr).dropWhile isSpaceCh).dropWhile isDigitCh with
  | [], _ => l
  | _ :: _, c :: rest =>
    if isCloseBr74 c && rest.head?.any (fun d => !isDigitCh d) then rest else l
  | _ :: _, [] => l

/-- The lazy tail `.*?x` of an annotation pattern: the remainder after the
first `x`, provided no newline intervenes (`.` does not match a newline and
the lazy star stops at the first possible close). -/
def lazyUpTo (stop : Char) : List Char → Option (List Char)
  | [] => none
  | c :: rest =>
    if c = stop then some rest
    else if c = '\n' then none
    else lazyUpTo stop rest

theorem lazyUpTo_length {stop : Char} {l rem : List Char}
    (h : lazyUpTo stop l = some rem) : rem.length < l.length := by
  induction l with
  | nil => simp [lazyUpTo] at h
  | cons c rest ih =>
    simp only [lazyUpTo] at h
    by_cases h1 : c = stop
    · rw [if_pos h1] at h
      cases h
      simp
    · rw [if_neg h1] at h
      by_cases h2 : c = '\n'
      · rw [if_pos h2] at h; cases h
      · rw [if_neg h2] at h
        have := ih h
        simp only [List.length_cons]
        omega

/-- Line 80, `re.sub('(\(예:.*?\)|\[예:.*?\]|^[ \t]*예:.*?)', '', line)`:
delete example annotations.  The `^`-anchored third alternative can only
fire at offset 0, where its lazy tail matches the empty string; the `Bool`
argument records whether the scan is still at offset 0. -/
def exTail (stop : Char) (rest : List Char) : Option (List Char) :=
  match rest with
  | a :: b :: r2 => if a = '예' && b = ':' then lazyUpTo stop r2 else none
  | _ => none

/-- The third, `^`-anchored alternative `^[ \t]*예:.*?`: its lazy tail
matches the empty string, so the remainder starts right after the colon. -/
def exStart (l : List Char) : Option (List Char) :=
  match l.dropWhile (fun d => d = ' ' || d = '\t') with
  | a :: b :: r2 => if a = '예' && b = ':' then some r2 else none
  | _ => none

theorem exTail_length {stop : Char} {rest rem : List Char}
    (h : exTail stop rest = some rem) : rem.length < rest.length := by
  unfold exTail at h
  split at h
  · rename_i a b r2
    split at h
    · have h1 := lazyUpTo_length h
      simp only [List.length_cons]
      omega
    · cases h
  · cases h

theorem exStart_length {l rem : List Char} (h : exStart l = some rem) :
    rem.length < l.length := by
  unfold exStart at h
  split at h
  · rename_i a b r2 heq
    split at h
    · injection h with h
      subst h
      have h1 := dropWhile_length_le (fun d => d = ' ' || d = '\t') l
      have h2 := congrArg List.length heq
      simp only [List.length_cons] at h2
      omega
    · cases h
  · cases h

def subExamples (atStart : Bool) (l : List Char) : List Char :=
  match l with
  | [] => []
  | c :: rest =>
    if c = '(' then
      match h2 : exTail ')' rest with
      | some rem => subExamples false rem
      | none => c :: subExamples false rest
    else if c = '[' then
      match h2 : exTail ']' rest with
      | some rem => subExamples false rem
      | none => c :: subExamples false rest
    else if atStart then
      match h3 : exStart (c :: rest) with
      | some r2 => subExamples false r2
      | none => c :: subExamples false rest
    else c :: subExamples false rest
termination_by l.length
decreasing_by
  all_goals first
    | (have h5 := exTail_length h2
       simp only [List.length_cons]
       omega)
    | (have h5 := exStart_length h3
       simp only [List.length_cons] at h5 ⊢
       omega)
    | (simp only [List.length_cons]; omega)

theorem subExamples_nil (b : Bool) : subExamples b [] = [] := by
  rw [subExamples.eq_def]

theorem subExamples_cons_plain {c : Char} {rest : List Char} (h1 : ¬ c = '(')
    (h2 : ¬ c = '[') : subExamples false (c :: rest) = c :: subExamples false rest := by
  rw [subExamples.eq_def]
  split
  · rename_i hx
    cases hx
  · rename_i c2 rest2 hx
    injection hx with ha hb
    subst ha
    subst hb
    rw [if_neg h1, if_neg h2]
    rfl

theorem subExamples_start_none {c : Char} {rest : List Char} (h1 : ¬ c = '(')
    (h2 : ¬ c = '[') (h3 : exStart (c :: rest) = none) :
    subExamples true (c :: rest) = c :: subExamples false rest := by
  rw [subExamples.eq_def]
  split
  · rename_i hx
    cases hx
  · rename_i c2 rest2 hx
    injection hx with ha hb
    subst ha
    subst hb
    rw [if_neg h1, if_neg h2, if_pos rfl]
    split
    · rename_i r2 hx2
      rw [h3] at hx2
      cases hx2
    · rfl

/-- Line 81, `re.sub('^\s*[\(\[<〈《【〔]*\s*[ㄱ-ㅎ가-힣][\)\]>〉》】〕]\s*(?=[가-힣]*)',
'', line)`: delete a leading ordered bullet.  The trailing lookahead
`(?=[가-힣]*)` matches the empty string and always succeeds. -/
def subBullet (l : List Char) : List Char :=
  match (((l.dropWhile isSpaceCh).dropWhile isOpenBr).dropWhile isSpaceCh) with
  | c :: c2 :: rest =>
    if isJamoOrHang c && isCloseBr81 c2 then rest.dropWhile isSpaceCh else l
  | _ => l

/-- Distance to the first `)` and the remainder after it. -/
def toCloseParen : List Char → Option (Nat × List Char)
  | [] => none
  | c :: rest =>
    if c = ')' then some (0, rest)
    else (toCloseParen rest).map fun p => (p.1 + 1, p.2)

theorem toCloseParen_length {l : List Char} {g : Nat} {rem : List Char}
    (h : toCloseParen l = some (g, rem)) : rem.length < l.length := by
  induction l generalizing g rem with
  | nil => simp [toCloseParen] at h
  | cons c rest ih =>
    simp only [toCloseParen] at h
    by_cases h1 : c = ')'
    · rw [if_pos h1] at h
      cases h
      simp
    · rw [if_neg h1] at h
      match h2 : toCloseParen rest with
      | none => rw [h2] at h; cases h
      | some (g2, rem2) =>
        rw [h2] at h
        simp only [Option.map_some', Option.some.injEq, Prod.mk.injEq] at h
        have h3 := ih h2
        have h4 : rem = rem2 := h.2.symm
        rw [h4]
        simp only [List.length_cons]
        omega

/-- Line 82, `re.sub('\([^\)]*[^\)]+\)', '', line)`: delete a parenthesized
span containing at least one character; `()` itself never matches, and the
negated class lets the span cross newlines. -/
def subParens (l : List Char) : List Char :=
  match l with
  | [] => []
  | c :: rest =>
    if c = '(' then
      match h1 : toCloseParen rest with
      | some (g, rem) => if 1 ≤ g then subParens rem else c :: subParens rest
      | none => c :: subParens rest
    else c :: subParens rest
termination_by l.length
decreasing_by
  all_goals first
    | (have h9 := toCloseParen_length h1; simp only [List.length_cons]; omega)
    | (simp only [List.length_cons]; omega)

/-- Lowercase alphanumeric, regex class `[a-z0-9]` (line 84). -/
def isLowAl (c : Char) : Bool := isLower c || isDigitCh c

/-- Domain-label character, regex class `[a-z0-9-]` (line 84). -/
def isDomCh (c : Char) : Bool := isLowAl c || c = '-'

/-- The negated trailing class `[^ㄱ-힣\)\]\.\,\'\"\s]*` of line 85: the
range `ㄱ-힣` spans U+3131 to U+D7A3. -/
def isUrlTail (c : Char) : Bool :=
  !((0x3131 ≤ c.toNat && c.toNat ≤ 0xD7A3) || c = ')' || c = ']' || c = '.' ||
    c = ',' || c.toNat = 0x27 || c = '"' || isSpaceCh c)

/-- Strip a literal from the head of a list. -/
def dropLit : List Char → List Char → Option (List Char)
  | [], l => some l
  | _ :: _, [] => none
  | p :: ps, c :: rest => if c = p then dropLit ps rest else none

/-- The scheme literals of line 84, in alternation order; `https?` and
`ftps?` expand to the variant with `s` first, as the greedy `s?` does. -/
def schemeLits : List (List Char) :=
  ["file://".toList, "gopher://".toList, "news://".toList, "nntp://".toList,
   "telnet://".toList, "https://".toList, "http://".toList, "ftps://".toList,
   "ftp://".toList, "sftp://".toList, "www.".toList]

/-- The scheme alternation of line 84, tried in source order. -/
def schemeMatch (l : List Char) : Option (List Char) :=
  schemeLits.findSome? fun p => dropLit p l

theorem dropLit_length : ∀ {p l r : List Char}, dropLit p l = some r →
    r.length ≤ l.length
  | [], l, r, h => by cases h; exact Nat.le_refl _
  | _ :: _, [], r, h => by cases h
  | p :: ps, c :: rest, r, h => by
    simp only [dropLit] at h
    split at h
    · have := dropLit_length h
      simp only [List.length_cons]
      omega
    · cases h

theorem findSome_dropLit_length : ∀ (ps : List (List Char)) {l r : List Char},
    (ps.findSome? fun p => dropLit p l) = some r → r.length ≤ l.length
  | [], l, r, h => by simp [List.findSome?] at h
  | p :: ps, l, r, h => by
    rw [List.findSome?_cons] at h
    split at h
    · cases h
      exact dropLit_length (by assumption)
    · exact findSome_dropLit_length ps h

theorem schemeMatch_length {l r : List Char} (h : schemeMatch l = some r) :
    r.length ≤ l.length :=
  findSome_dropLit_length schemeLits h

/-- The tail `[a-z0-9]{2,4}[^ㄱ-힣\)\]\.\,\'\"\s]*` of line 84: at least two
lowercase alphanumerics must follow; the counted quantifier consumes at most
four and the greedy negated class then extends the match. -/
def urlTail24 (l : List Char) : Option (List Char) :=
  if 2 ≤ (l.takeWhile isLowAl).length then
    some ((l.drop (min 4 (l.takeWhile isLowAl).length)).dropWhile isUrlTail)
  else none

/-- The group `([a-z0-9-]+\.)+` of line 84 followed by `urlTail24`, with the
greedy backtracking of `+`: consume as many dotted labels as possible and
give them back one at a time until the tail matches. -/
def urlLabels (l : List Char) : Option (List Char) :=
  match l.takeWhile isDomCh with
  | [] => none
  | _ :: _ =>
    match h1 : l.drop (l.takeWhile isDomCh).length with
    | '.' :: rest =>
      match urlLabels rest with
      | some rem => some rem
      | none => urlTail24 rest
    | _ => none
termination_by l.length
decreasing_by
  have h2 := congrArg List.length h1
  simp only [List.length_drop, List.length_cons] at h2
  omega

theorem urlTail24_length {l rem : List Char} (h : urlTail24 l = some rem) :
    rem.length ≤ l.length := by
  unfold urlTail24 at h
  split at h
  · cases h
    calc ((l.drop (min 4 (l.takeWhile isLowAl).length)).dropWhile isUrlTail).length
        ≤ (l.drop (min 4 (l.takeWhile isLowAl).length)).length :=
          dropWhile_length_le _ _
      _ ≤ l.length := by simp [List.length_drop]
  · cases h

theorem urlLabels_length_aux : ∀ (n : Nat) {l rem : List Char}, l.length ≤ n →
    urlLabels l = some rem → rem.length < l.length := by
  intro n
  induction n with
  | zero =>
    intro l rem hn h
    have hl : l = [] := List.length_eq_zero.mp (Nat.le_zero.mp hn)
    rw [hl, urlLabels] at h
    simp at h
  | succ n ih =>
    intro l rem hn h
    rw [urlLabels] at h
    split at h
    · cases h
    · split at h
      case _ rest h1 =>
        have h2 := congrArg List.length h1
        simp only [List.length_drop, List.length_cons] at h2
        match h3 : urlLabels rest with
        | some rem2 =>
          rw [h3] at h
          cases h
          have := @ih rest rem (by omega) h3
          omega
        | none =>
          rw [h3] at h
          have := urlTail24_length h
          omega
      case _ => cases h

theorem urlLabels_length {l rem : List Char} (h : urlLabels l = some rem) :
    rem.length < l.length :=
  urlLabels_length_aux l.length (Nat.le_refl _) h

/-- Lines 83-85: delete web addresses. -/
def subWebAddr (l : List Char) : List Char :=
  match l with
  | [] => []
  | c :: rest =>
    match hs : schemeMatch (c :: rest) with
    | some afterScheme =>
      match hu : urlLabels afterScheme with
      | some rem => subWebAddr rem
      | none => c :: subWebAddr rest
    | none => c :: subWebAddr rest
termination_by l.length
decreasing_by
  · have ha := schemeMatch_length hs
    have hb := urlLabels_length hu
    simp only [List.length_cons] at ha ⊢
    omega
  · simp
  · simp

/-- Line 86, `re.sub('[ㅡ-]*', '', line)`: the starred class deletes every
`ㅡ` (U+3161) and `-`; the empty matches elsewhere replace nothing. -/
def subDashes : List Char → List Char
  | [] => []
  | c :: rest =>
    if c = 'ㅡ' || c = '-' then subDashes rest else c :: subDashes rest

/-- Line 87, quotation deletion: the starred class holds the backquote
(U+0060), the apostrophe (U+0027), the quotation mark, U+FF02, U+2018,
U+2019, U+201C and U+201D. -/
def subQuotes : List Char → List Char
  | [] => []
  | c :: rest =>
    if c.toNat = 0x60 || c.toNat = 0x27 || c = '"' || c.toNat = 0xFF02 ||
        c.toNat = 0x2018 || c.toNat = 0x2019 || c.toNat = 0x201C || c.toNat = 0x201D then
      subQuotes rest
    else c :: subQuotes rest

/-- One candidate of the lazy search inside `【.*?기자[ \t]*】` (line 88):
the literal `기자` at this position, then `[ \t]*` greedily, then the
closing `】`; returns the remainder after `】`. -/
def repCand (l : List Char) : Option (List Char) :=
  match l with
  | a :: b :: r2 =>
    if a = '기' && b = '자' then
      if (r2.dropWhile fun d => d = ' ' || d = '\t').head? = some '】' then
        some (r2.dropWhile fun d => d = ' ' || d = '\t').tail
      else none
    else none
  | _ => none

theorem repCand_length {l r3 : List Char} (h : repCand l = some r3) :
    r3.length < l.length := by
  unfold repCand at h
  split at h
  · rename_i a b r2
    split at h
    · split at h
      · cases h
        have h4 := dropWhile_length_le (fun d => d = ' ' || d = '\t') r2
        have h5 := List.length_tail (r2.dropWhile fun d => d = ' ' || d = '\t')
        simp only [List.length_cons]
        omega
      · cases h
    · cases h
  · cases h

/-- The lazy scan of `【.*?기자[ \t]*】` (line 88): try the candidate at
every position, without crossing a newline (`.` does not match a newline);
on a failed candidate the lazy dot-star resumes one character further. -/
def findReporter (l : List Char) : Option (List Char) :=
  match l with
  | [] => none
  | c :: rest =>
    if c = '\n' then none
    else
      match repCand (c :: rest) with
      | some r3 => some r3
      | none => findReporter rest

theorem findReporter_length {l rem : List Char} (h : findReporter l = some rem) :
    rem.length < l.length := by
  induction l generalizing rem with
  | nil => simp [findReporter] at h
  | cons c rest ih =>
    rw [findReporter] at h
    split at h
    · cases h
    · split at h
      · rename_i r3 hc
        cases h
        exact repCand_length hc
      · have := ih h
        simp only [List.length_cons]
        omega

/-- Line 88, `re.sub('【.*?기자[ \t]*】', '', line)`: delete a reporter
byline. -/
def subReporter (l : List Char) : List Char :=
  match l with
  | [] => []
  | c :: rest =>
    if c = '【' then
      match hr : findReporter rest with
      | some rem => subReporter rem
      | none => c :: subReporter rest
    else c :: subReporter rest
termination_by l.length
decreasing_by
  all_goals first
    | (have h9 := findReporter_length hr; simp only [List.length_cons]; omega)
    | (simp only [List.length_cons]; omega)

/-- Line 89, `re.sub('〔.*?〕', '', line)`: delete a bracketed title
reference (lazy, not across a newline). -/
def subTitleRef (l : List Char) : List Char :=
  match l with
  | [] => []
  | c :: rest =>
    if c = '〔' then
      match hr : lazyUpTo '〕' rest with
      | some rem => subTitleRef rem
      | none => c :: subTitleRef rest
    else c :: subTitleRef rest
termination_by l.length
decreasing_by
  all_goals first
    | (have h9 := lazyUpTo_length hr; simp only [List.length_cons]; omega)
    | (simp only [List.length_cons]; omega)

/-- Line 90, bracket deletion `[\[〈〉《》「」『』{}\]]*`: a starred class, so
the effect is to drop every one of these characters (the curly braces are
U+007B and U+007D). -/
def subBrackets : List Char → List Char
  | [] => []
  | c :: rest =>
    if c = '[' || c = ']' || c = '〈' || c = '〉' || c = '《' || c = '》' ||
        c = '「' || c = '」' || c = '『' || c = '』' || c.toNat = 0x7B || c.toNat = 0x7D then
      subBrackets rest
    else c :: subBrackets rest

/-- Word character, regex class `\w` on `str` subjects, restricted to the
script ranges that occur in this pipeline: ASCII alphanumerics, the
underscore, compatibility jamo, Korean syllables and CJK ideographs. -/
def isWordCh (c : Char) : Bool :=
  isLatin c || isDigitCh c || c = '_' ||
  (0x3131 ≤ c.toNat && c.toNat ≤ 0x318E) || isHang c || isHanja c

/-- Class `[\w\.]` of line 91. -/
def isWordDot (c : Char) : Bool := isWordCh c || c = '.'

/-- Backtracking split of `[\w\.]*\.([A-Za-z]+)` inside the domain of
line 91: the rightmost index `j` with a period at `j` and a Latin letter
just after it (the regex gives back characters from the end until `\.`
can match). -/
def lastDotLetter : List Char → Option Nat
  | [] => none
  | c :: rest =>
    match lastDotLetter rest with
    | some j => some (j + 1)
    | none => if c = '.' && rest.head?.any isLatin then some 0 else none

/-- The email pattern `(\w+[\w\.]*)@(\w+[\w\.]*)\.([A-Za-z]+)` of line 91
tried at the head of the list; returns the remainder after the match.  The
mailbox part is a maximal word-or-period run starting with a word character,
then `@`, then the domain run, whose tail is split at the last period that
is followed by letters. -/
def emailAt (l : List Char) : Option (List Char) :=
  match l with
  | [] => none
  | c :: rest =>
    if isWordCh c then
      match rest.drop (rest.takeWhile isWordDot).length with
      | '@' :: d :: r3 =>
        if isWordCh d then
          match lastDotLetter (d :: r3.takeWhile isWordDot) with
          | some j =>
            some (((d :: r3.takeWhile isWordDot).drop
                (j + 1 + (((d :: r3.takeWhile isWordDot).drop (j + 1)).takeWhile
                  isLatin).length)) ++ r3.drop (r3.takeWhile isWordDot).length)
          | none => none
        else none
      | _ => none
    else none

theorem takeWhile_length_le (p : Char → Bool) (l : List Char) :
    (l.takeWhile p).length ≤ l.length :=
  (List.takeWhile_sublist p).length_le

theorem emailAt_length {l rem : List Char} (h : emailAt l = some rem) :
    rem.length < l.length := by
  unfold emailAt at h
  split at h
  · cases h
  · rename_i c rest
    split at h
    · split at h
      · rename_i hd1 d r3 hd2
        split at h
        · split at h
          · rename_i j hj
            cases h
            have h1 := congrArg List.length hd2
            have h2 : ((d :: r3.takeWhile isWordDot).drop
                (j + 1 + (((d :: r3.takeWhile isWordDot).drop (j + 1)).takeWhile
                  isLatin).length)).length ≤ (d :: r3.takeWhile isWordDot).length - 1 := by
              simp only [List.length_drop]
              omega
            have h3 := takeWhile_length_le isWordDot r3
            have h4 := takeWhile_length_le isWordDot rest
            simp only [List.length_drop, List.length_cons, List.length_append] at h1 h2 ⊢
            omega
          · cases h
        · cases h
      · cases h
    · cases h

/-- Line 91, email deletion: scan, trying the pattern at every offset. -/
def subEmail (l : List Char) : List Char :=
  match l with
  | [] => []
  | c :: rest =>
    match he : emailAt (c :: rest) with
    | some rem => subEmail rem
    | none => c :: subEmail rest
termination_by l.length
decreasing_by
  all_goals first
    | (have h9 := emailAt_length he; simp only [List.length_cons] at h9 ⊢; omega)
    | (simp only [List.length_cons]; omega)

theorem subEmail_nil : subEmail [] = [] := by
  rw [subEmail.eq_def]

theorem subEmail_cons_none {c : Char} {rest : List Char} (h : emailAt (c :: rest) = none) :
    subEmail (c :: rest) = c :: subEmail rest := by
  rw [subEmail.eq_def]
  split
  · rename_i hrem
    cases hrem
  · rename_i c2 rest2 hrem
    injection hrem with h1 h2
    subst h1
    subst h2
    split
    · rename_i rem hrem2
      rw [h] at hrem2
      cases hrem2
    · rfl

/-- Line 92, `re.sub('\#', '', line)`. -/
def subSharp : List Char → List Char
  | [] => []
  | c :: rest => if c = '#' then subSharp rest else c :: subSharp rest

/-- The span consumed after the leading letter by one match of
`[A-Za-z]+[ ]?[A-Za-z]*` (line 93): the greedy first letter run, one
optional space, and the greedy second letter run. -/
def glueMunch (rest : List Char) : List Char :=
  match rest.dropWhile isLatin with
  | ' ' :: r2 => r2.dropWhile isLatin
  | r1 => r1

/-- The last character consumed by the same match (the lookbehind subject
character for the position where the scan resumes). -/
def glueLast (c : Char) (rest : List Char) : Char :=
  match rest.dropWhile isLatin with
  | ' ' :: r2 =>
    match (r2.takeWhile isLatin).getLast? with
    | some d => d
    | none => ' '
  | _ =>
    match (rest.takeWhile isLatin).getLast? with
    | some d => d
    | none => c

theorem glueMunch_length (rest : List Char) : (glueMunch rest).length ≤ rest.length := by
  unfold glueMunch
  split
  · rename_i r2 hr
    have h1 := congrArg List.length hr
    have h2 := dropWhile_length_le isLatin rest
    have h3 := dropWhile_length_le isLatin r2
    simp only [List.length_cons] at h1
    omega
  · exact dropWhile_length_le isLatin rest

/-- Line 93, `re.sub('(?<=[가-힣])[A-Za-z]+[ ]?[A-Za-z]*', '', line)`: delete
a Latin run glued directly to a Korean syllable, optionally extended over a
single space by a second Latin run.  The argument carries the subject
character at offset -1. -/
def subGluedLatin (p1 : Option Char) (l : List Char) : List Char :=
  match l with
  | [] => []
  | c :: rest =>
    if isLatin c && p1.any isHang then
      subGluedLatin (some (glueLast c rest)) (glueMunch rest)
    else c :: subGluedLatin (some c) rest
termination_by l.length
decreasing_by
  all_goals first
    | (have h9 := glueMunch_length rest; simp only [List.length_cons]; omega)
    | (simp only [List.length_cons]; omega)

/-- Line 96, `re.sub('[=:;]', '\n', line)`. -/
def subColons (l : List Char) : List Char :=
  l.map fun c => if c = '=' || c = ':' || c = ';' then '\n' else c

/-- Line 99, `re.sub('·', ' ', line)`. -/
def subMiddot (l : List Char) : List Char :=
  l.map fun c => if c = '·' then ' ' else c

/-- Line 100, `re.sub('(?<=[가-힣A-Za-z])~(?=[가-힣A-Za-z]+)', ' ', line)`: a
tilde between two word characters becomes a space. -/
def subTilde : Option Char → List Char → List Char
  | _, [] => []
  | p1, c :: rest =>
    (if c = '~' && p1.any (fun d => isHang d || isLatin d) &&
        rest.head?.any (fun d => isHang d || isLatin d) then ' ' else c)
      :: subTilde (some c) rest

/-- Line 101, `re.sub('→', ' ', line)`. -/
def subArrow (l : List Char) : List Char :=
  l.map fun c => if c = '→' then ' ' else c

/-! ## The normalizer `normalize` (lines 70-125) -/

/-- Lines 72-116, the per-line rewrite chain of `normalize`, in source
order; `reader`, `translate` and `loan` are the external readers. -/
def normalizeLine (reader : Nat → List Char) (translate : List Char → List Char)
    (loan : List Char → List Char) (line : List Char) : Option (List Char) := do
  let l2 ← readNumber reader (subLeadingNumber line)
  let l3 := subGluedLatin none (subSharp (subEmail (subBrackets (subTitleRef
    (subReporter (subQuotes (subDashes (subWebAddr (subParens (subBullet
      (subExamples true l2)))))))))))
  let l4 := readHanja translate (readHangulLetter
    (subArrow (subTilde none (subMiddot (subColons l3)))))
  let l5 ← readABC l4
  let l6 ← readAlphabet loan l5
  pure (removeNonHangul l6)

/-- Lines 70-125 `normalize`: rewrite every line and keep the nonempty,
non-whitespace results in order.  A `none` from a rewrite (a Python
exception) aborts the whole run, as an uncaught exception would. -/
def normalize (reader : Nat → List Char) (translate : List Char → List Char)
    (loan : List Char → List Char) : List (List Char) → Option (List (List Char))
  | [] => some []
  | line :: rest => do
    let l ← normalizeLine reader translate loan line
    let body ← normalize reader translate loan rest
    pure (if keepLine l then l :: body else body)

/-! ## Derived predicates and specification-level functions -/

/-- No two adjacent characters satisfy `f`. -/
def noPairB (f : Char → Char → Bool) : List Char → Bool
  | a :: b :: rest => !f a b && noPairB f (b :: rest)
  | _ => true

/-- No three adjacent characters satisfy `g`. -/
def noTripleB (g : Char → Char → Char → Bool) : List Char → Bool
  | a :: b :: c :: rest => !g a b c && noTripleB g (b :: c :: rest)
  | _ => true

/-- Every character of `l` avoids the class `S`. -/
def charFree (S : Char → Bool) (l : List Char) : Prop := ∀ c ∈ l, S c = false

/-- The one-pass specification of `readABC`: replace, left to right, every
capital that is followed by a non-lowercase character with its table
reading. -/
def specABC : List Char → List Char
  | [] => []
  | c :: rest =>
    if abcCond c rest.head? then subABCLetters [c] ++ specABC rest
    else c :: specABC rest

/-- The count of matches of `[A-Z](?=[^a-z])` (position free). -/
def abcCount : List Char → Nat
  | [] => 0
  | c :: rest => (if abcCond c rest.head? then 1 else 0) + abcCount rest

/-- The characters of `pre` start no match of `[A-Z](?=[^a-z])`, where
`rest` continues the subject after `pre`. -/
def abcClean : List Char → List Char → Prop
  | [], _ => True
  | a :: t, rest => abcCond a ((t ++ rest).head?) = false ∧ abcClean t rest

/-- The count of matches of `([+-]?\d+)[\.]?\d*` (position free, skipping
over each match as the scan does). -/
def numCount (l : List Char) : Nat :=
  match l with
  | [] => 0
  | c :: rest =>
    match h : numTokenLen (c :: rest) with
    | some n => 1 + numCount ((c :: rest).drop n)
    | none => numCount rest
termination_by l.length
decreasing_by
  · have h1 := numTokenLen_one_le h
    simp only [List.length_drop, List.length_cons]
    omega
  · simp

/-- The characters of `pre` start no match of `([+-]?\d+)[\.]?\d*`, where
`rest` continues the subject after `pre`. -/
def numClean : List Char → List Char → Prop
  | [], _ => True
  | a :: t, rest => numTokenLen (a :: (t ++ rest)) = none ∧ numClean t rest

/-- The single-syllable Korean digit readings of lines 162-171. -/
def digitKor (c : Char) : Char :=
  if c = '0' then '영' else if c = '1' then '일' else if c = '2' then '이'
  else if c = '3' then '삼' else if c = '4' then '사' else if c = '5' then '오'
  else if c = '6' then '육' else if c = '7' then '칠' else if c = '8' then '팔'
  else if c = '9' then '구' else c

/-- The chain of single-character rewrites of lines 161-171 (the decimal
point, then each digit), exactly as `readNumToken` applies them. -/
def digitChain (l : List Char) : List Char :=
  subChar '9' '구' (subChar '8' '팔' (subChar '7' '칠' (subChar '6' '육' (subChar '5' '오'
    (subChar '4' '사' (subChar '3' '삼' (subChar '2' '이' (subChar '1' '일'
      (subChar '0' '영' (subChar '.' '점' l))))))))))

/-- One character of the jamo substitution, read off the table. -/
def jamoExpand (c : Char) : List Char :=
  match jamoTable.find? (fun p => p.1 = c) with
  | some p => p.2
  | none => [c]

/-- Membership in the sixteen-entry jamo table. -/
def isTableJamo (c : Char) : Bool := jamoTable.any fun p => p.1 = c

/-- The subject seen by a scan that carries a one-character lookbehind:
the carried character, when any, in front of the unscanned tail. -/
def withPrev : Option Char → List Char → List Char
  | some a, l => a :: l
  | none, l => l

/-! ## Supporting lemmas -/

theorem hang_not_latin {c : Char} (h : isHang c = true) : isLatin c = false := by
  simp only [isHang, Bool.and_eq_true, decide_eq_true_eq] at h
  simp only [isLatin, isUpper, isLower, Bool.or_eq_false_iff, Bool.and_eq_false_iff,
    decide_eq_false_iff_not]
  omega

theorem latin_not_hang {c : Char} (h : isLatin c = true) : isHang c = false := by
  simp only [isLatin, isUpper, isLower, Bool.or_eq_true, Bool.and_eq_true,
    decide_eq_true_eq] at h
  simp only [isHang, Bool.and_eq_false_iff, decide_eq_false_iff_not]
  omega

theorem subCharStr_append (a : Char) (b x y : List Char) :
    subCharStr a b (x ++ y) = subCharStr a b x ++ subCharStr a b y := by
  simp [subCharStr]

theorem foldl_subCharStr_append (ps : List (Char × List Char)) (x y : List Char) :
    ps.foldl (fun acc p => subCharStr p.1 p.2 acc) (x ++ y) =
      ps.foldl (fun acc p => subCharStr p.1 p.2 acc) x ++
        ps.foldl (fun acc p => subCharStr p.1 p.2 acc) y := by
  induction ps generalizing x y with
  | nil => rfl
  | cons p ps ih =>
    simp only [List.foldl_cons, subCharStr_append]
    exact ih _ _

theorem readHangulLetter_append (x y : List Char) :
    readHangulLetter (x ++ y) = readHangulLetter x ++ readHangulLetter y :=
  foldl_subCharStr_append jamoTable x y

theorem jamoExpand_not_table {c : Char} (h : ¬ isTableJamo c = true) :
    jamoExpand c = [c] := by
  unfold jamoExpand
  rw [List.find?_eq_none.mpr]
  intro p hp
  simp only [isTableJamo, List.any_eq_true, not_exists, not_and] at h
  simpa using h p hp

theorem readHangulLetter_single (c : Char) : readHangulLetter [c] = jamoExpand c := by
  by_cases h : isTableJamo c = true
  · simp only [isTableJamo, jamoTable, List.any_cons, List.any_nil, Bool.or_eq_true,
      decide_eq_true_eq] at h
    rcases h with h | h | h | h | h | h | h | h | h | h | h | h | h | h | h | h | h
    all_goals first
      | (rw [← h]; decide)
      | exact absurd h (by decide)
  · have key : ∀ ps : List (Char × List Char), (∀ p ∈ ps, ¬ p.1 = c) →
        ps.foldl (fun acc p => subCharStr p.1 p.2 acc) [c] = [c] := by
      intro ps
      induction ps with
      | nil => intro _; rfl
      | cons p ps ih =>
        intro hps
        simp only [List.foldl_cons]
        have h1 : subCharStr p.1 p.2 [c] = [c] := by
          simp only [subCharStr, List.flatMap_cons, List.flatMap_nil, List.append_nil]
          rw [if_neg]
          intro hc
          exact hps p (by simp) hc.symm
        rw [h1]
        exact ih fun q hq => hps q (by simp [hq])
    have h2 : jamoExpand c = [c] := jamoExpand_not_table h
    rw [h2, readHangulLetter]
    refine key jamoTable fun p hp hpc => h ?_
    simp only [isTableJamo, List.any_eq_true]
    exact ⟨p, hp, by simp [hpc]⟩

theorem readHangulLetter_flatMap (l : List Char) :
    readHangulLetter l = l.flatMap jamoExpand := by
  induction l with
  | nil => rfl
  | cons c rest ih =>
    have h0 : c :: rest = [c] ++ rest := rfl
    rw [h0, readHangulLetter_append, readHangulLetter_single, ih]
    simp

theorem jamoExpand_clean (c : Char) : ∀ d ∈ jamoExpand c, isTableJamo d = false := by
  by_cases h : isTableJamo c = true
  · simp only [isTableJamo, jamoTable, List.any_cons, List.any_nil, Bool.or_eq_true,
      decide_eq_true_eq] at h
    rcases h with h | h | h | h | h | h | h | h | h | h | h | h | h | h | h | h | h
    all_goals first
      | (rw [← h]; decide)
      | exact absurd h (by decide)
  · rw [jamoExpand_not_table h]
    intro d hd
    rw [List.mem_singleton] at hd
    rw [hd]
    exact Bool.not_eq_true _ ▸ h

theorem searchClassPlus_eq_any (cls : Char → Bool) (l : List Char) :
    searchClassPlus cls l = l.any cls := by
  induction l with
  | nil => rfl
  | cons c rest ih => simp [searchClassPlus, ih]

theorem searchHangHanja_eq (l : List Char) :
    searchHangHanja l = (l.zip l.tail).any fun p => isHang p.1 && isHanja p.2 := by
  induction l with
  | nil => rfl
  | cons a rest ih =>
    cases rest with
    | nil => rfl
    | cons b rest2 =>
      rw [searchHangHanja]
      simp only [List.tail_cons, List.zip_cons_cons, List.any_cons]
      rw [ih]
      simp

theorem subHanjaRuns_eq_filter (l : List Char) :
    subHanjaRuns l = l.filter fun c => !isHanja c := by
  induction l with
  | nil => rfl
  | cons c rest ih =>
    rw [subHanjaRuns]
    by_cases h : isHanja c = true
    · rw [if_pos h, ih, List.filter_cons_of_neg (by simp [h])]
    · rw [if_neg h, ih, List.filter_cons_of_pos (by simp [h])]

theorem subGluedLatin_keeps {p : Option Char} {l : List Char}
    (hp : p.any isHang = false) (hl : ∀ c ∈ l, isLatin c = true) :
    subGluedLatin p l = l := by
  induction l generalizing p with
  | nil => simp [subGluedLatin]
  | cons c rest ih =>
    rw [subGluedLatin, if_neg (by simp [hp])]
    have hc : isLatin c = true := hl c (by simp)
    have h1 : (some c).any isHang = false := by
      simpa using latin_not_hang hc
    rw [ih h1 fun d hd => hl d (by simp [hd])]

theorem subGluedLatin_id_of_noPair {p : Option Char} {l : List Char}
    (h : noPairB (fun a b => isHang a && isLatin b) (withPrev p l) = true)
    (h0 : ∀ a, p = some a → l ≠ [] → (isHang a && isLatin l.head!) = false) :
    subGluedLatin p l = l := by
  induction l generalizing p with
  | nil => simp [subGluedLatin]
  | cons c rest ih =>
    have hcond : (isLatin c && p.any isHang) = false := by
      cases p with
      | none => simp
      | some a =>
        have := h0 a rfl (by simp)
        simp only [List.head!] at this
        simp only [Option.any_some]
        cases ha : isHang a
        · simp
        · rw [ha] at this
          simpa using this
    rw [subGluedLatin, if_neg (by simp [hcond])]
    have htail : noPairB (fun a b => isHang a && isLatin b) (withPrev (some c) rest) = true := by
      cases p with
      | none => simpa [withPrev] using h
      | some a =>
        simp only [withPrev] at h ⊢
        rw [noPairB] at h
        exact (Bool.and_eq_true _ _ ▸ h).2
    have hhead : ∀ a, some c = some a → rest ≠ [] → (isHang a && isLatin rest.head!) = false := by
      intro a ha hne
      cases ha
      cases rest with
      | nil => exact absurd rfl hne
      | cons d r2 =>
        have h2 : noPairB (fun a b => isHang a && isLatin b) (c :: d :: r2) = true := htail
        rw [noPairB] at h2
        have h3 := (Bool.and_eq_true _ _ ▸ h2).1
        rw [Bool.not_eq_eq_eq_not] at h3
        simpa using h3
    rw [ih htail hhead]

/-! ## The claims -/

/-- C9: for `0 ≤ start ≤ end ≤ s.length`, `replaceSubstring s r (start, end)`
is `s[0:start] + r + s[end:]`; in particular the characters of `s` before
`start` reappear unchanged as the first `start` characters of the result,
and the characters of `s` from `end` on reappear unchanged after the
replacement. -/
theorem replaceSubstring_spec (s r : List Char) (a b : Nat)
    (h1 : a ≤ b) (h2 : b ≤ s.length) :
    replaceSubstring s r (a, b) = s.take a ++ r ++ s.drop b ∧
    (replaceSubstring s r (a, b)).take a = s.take a ∧
    (replaceSubstring s r (a, b)).drop (a + r.length) = s.drop b := by
  have hta : (s.take a).length = a := by
    simp only [List.length_take]
    omega
  refine ⟨rfl, ?_, ?_⟩
  · show (s.take a ++ r ++ s.drop b).take a = s.take a
    rw [List.append_assoc, List.take_left' hta]
  · show (s.take a ++ r ++ s.drop b).drop (a + r.length) = s.drop b
    have hl : (s.take a ++ r).length = a + r.length := by
      simp [hta]
    rw [List.drop_left' hl]

/-- C9 witness: the theorem applied at `s = 가나다`, `r = 라마`,
`span = (1, 2)`. -/
theorem replaceSubstring_spec_witness :
    replaceSubstring ("가나다".toList) ("라마".toList) (1, 2) =
        ("가나다".toList).take 1 ++ "라마".toList ++ ("가나다".toList).drop 2 ∧
    (replaceSubstring ("가나다".toList) ("라마".toList) (1, 2)).take 1 =
        ("가나다".toList).take 1 ∧
    (replaceSubstring ("가나다".toList) ("라마".toList) (1, 2)).drop
        (1 + ("라마".toList).length) = ("가나다".toList).drop 2 :=
  replaceSubstring_spec ("가나다".toList) ("라마".toList) 1 2 (by decide) (by decide)

/-- C5 counterexample: `ㅋ` (U+314B) is one of the fourteen plain Korean
consonant jamo, yet `readHangulLetter` returns it unchanged — the table of
lines 284-300 has only eleven plain-consonant entries and handles none of
`ㅋ`, `ㅌ`, `ㅍ`, so the claimed fourteen-consonant coverage fails. -/
theorem readHangulLetter_counterexample :
    readHangulLetter ['ㅋ'] = ['ㅋ'] ∧ readHangulLetter ['ㅌ'] = ['ㅌ'] ∧
    readHangulLetter ['ㅍ'] = ['ㅍ'] := by decide

/-- C5 (amended): `readHangulLetter` substitutes the full phonetic name for
every occurrence of each of the sixteen jamo of its table — the eleven
plain consonants `ㄱㄴㄷㄹㅁㅂㅅㅇㅈㅊㅎ` and the five tense consonants
`ㄲㄸㅃㅆㅉ`; it acts as the pointwise expansion of that table, and none of
those sixteen jamo remains in its output (`ㅋ`, `ㅌ`, `ㅍ` are not in the
table and are left alone). -/
theorem readHangulLetter_spec (l : List Char) :
    readHangulLetter l = l.flatMap jamoExpand ∧
    ∀ d ∈ readHangulLetter l, isTableJamo d = false := by
  refine ⟨readHangulLetter_flatMap l, ?_⟩
  rw [readHangulLetter_flatMap l]
  intro d hd
  rw [List.mem_flatMap] at hd
  obtain ⟨c, _, hdc⟩ := hd
  exact jamoExpand_clean c d hdc

/-- C7: `readHanja` deletes all ideograph runs exactly when the sentence
has a Korean syllable immediately followed by an ideograph, otherwise it
hands the whole sentence to the external translator, and a sentence without
ideographs is returned unchanged — the translator is consulted only in the
middle case. -/
theorem readHanja_spec (translate : List Char → List Char) (l : List Char) :
    readHanja translate l =
      if l.any isHanja then
        if (l.zip l.tail).any (fun p => isHang p.1 && isHanja p.2) then
          l.filter fun c => !isHanja c
        else translate l
      else l := by
  rw [readHanja, searchClassPlus_eq_any, searchHangHanja_eq, subHanjaRuns_eq_filter]

/-- C4 counterexample: the glued-Latin rule of line 93 leaves
`정부 government` unchanged.  The lookbehind `(?<=[가-힣])` sits directly
before the first Latin letter, and the character before `g` is a space, so
the rule does not fire; the claim that this rule removes a Latin annotation
separated by one space is false (the optional single space of the pattern
lies between the two letter runs, not before the first). -/
theorem subGluedLatin_counterexample :
    subGluedLatin none ("정부 government".toList) = "정부 government".toList :=
  subGluedLatin_id_of_noPair (by decide) fun _ ha => nomatch ha

/-- C4 (amended): the glued-Latin rule deletes a Latin run only when it is
glued to a Korean syllable with no intervening space (and then it also
swallows one optional space plus a second Latin run that follows); with one
space between the syllable and the run, the rule leaves the line
unchanged. -/
theorem subGluedLatin_spec (h : Char) (w : List Char) (hh : isHang h = true)
    (hw : w ≠ []) (hall : ∀ c ∈ w, isLatin c = true) :
    subGluedLatin none (h :: w) = [h] ∧
    subGluedLatin none (h :: ' ' :: w) = h :: ' ' :: w := by
  have hnl : isLatin h = false := hang_not_latin hh
  constructor
  · rw [subGluedLatin, if_neg (by simp [hnl])]
    cases w with
    | nil => exact absurd rfl hw
    | cons c rest =>
      rw [subGluedLatin, if_pos]
      · have hrest : rest.dropWhile isLatin = [] :=
          List.dropWhile_eq_nil_iff.mpr fun d hd => by
            simpa using hall d (by simp [hd])
        have hm : glueMunch rest = [] := by
          unfold glueMunch
          rw [hrest]
        rw [hm]
        simp [subGluedLatin]
      · simp only [Option.any_some, hh, Bool.and_true]
        exact hall c (by simp)
  · have hsp : isLatin ' ' = false := by decide
    rw [subGluedLatin, if_neg (by simp [hnl])]
    rw [subGluedLatin, if_neg (by simp [hsp])]
    rw [subGluedLatin_keeps (by decide) hall]

/-- C4 witness: the theorem applied at `h = 부`, `w = gov`. -/
theorem subGluedLatin_spec_witness :
    subGluedLatin none ('부' :: "gov".toList) = ['부'] ∧
    subGluedLatin none ('부' :: ' ' :: "gov".toList) = '부' :: ' ' :: "gov".toList :=
  subGluedLatin_spec '부' ("gov".toList) (by decide) (by decide) (by decide)

theorem char_eq_of_toNat {c d : Char} (h : c.toNat = d.toNat) : c = d :=
  Char.ext (UInt32.toNat.inj h)

theorem upper_enum {c : Char} (h : isUpper c = true) :
    c = 'A' ∨ c = 'B' ∨ c = 'C' ∨ c = 'D' ∨ c = 'E' ∨ c = 'F' ∨ c = 'G' ∨ c = 'H' ∨ c = 'I' ∨ c = 'J' ∨ c = 'K' ∨ c = 'L' ∨ c = 'M' ∨ c = 'N' ∨ c = 'O' ∨ c = 'P' ∨ c = 'Q' ∨ c = 'R' ∨ c = 'S' ∨ c = 'T' ∨ c = 'U' ∨ c = 'V' ∨ c = 'W' ∨ c = 'X' ∨ c = 'Y' ∨ c = 'Z' := by
  simp only [isUpper, Bool.and_eq_true, decide_eq_true_eq] at h
  have h26 : c.toNat = 65 ∨ c.toNat = 66 ∨ c.toNat = 67 ∨ c.toNat = 68 ∨ c.toNat = 69 ∨ c.toNat = 70 ∨ c.toNat = 71 ∨ c.toNat = 72 ∨ c.toNat = 73 ∨ c.toNat = 74 ∨ c.toNat = 75 ∨ c.toNat = 76 ∨ c.toNat = 77 ∨ c.toNat = 78 ∨ c.toNat = 79 ∨ c.toNat = 80 ∨ c.toNat = 81 ∨ c.toNat = 82 ∨ c.toNat = 83 ∨ c.toNat = 84 ∨ c.toNat = 85 ∨ c.toNat = 86 ∨ c.toNat = 87 ∨ c.toNat = 88 ∨ c.toNat = 89 ∨ c.toNat = 90 := by omega
  rcases h26 with h1|h1|h1|h1|h1|h1|h1|h1|h1|h1|h1|h1|h1|h1|h1|h1|h1|h1|h1|h1|h1|h1|h1|h1|h1|h1
  · exact Or.inl (char_eq_of_toNat h1)
  · exact Or.inr (Or.inl (char_eq_of_toNat h1))
  · exact Or.inr (Or.inr (Or.inl (char_eq_of_toNat h1)))
  · exact Or.inr (Or.inr (Or.inr (Or.inl (char_eq_of_toNat h1))))
  · exact Or.inr (Or.inr (Or.inr (Or.inr (Or.inl (char_eq_of_toNat h1)))))
  · exact Or.inr (Or.inr (Or.inr (Or.inr (Or.inr (Or.inl (char_eq_of_toNat h1))))))
  · exact Or.inr (Or.inr (Or.inr (Or.inr (Or.inr (Or.inr (Or.inl (char_eq_of_toNat h1)))))))
  · exact Or.inr (Or.inr (Or.inr (Or.inr (Or.inr (Or.inr (Or.inr (Or.inl (char_eq_of_toNat h1))))))))
  · exact Or.inr (Or.inr (Or.inr (Or.inr (Or.inr (Or.inr (Or.inr (Or.inr (Or.inl (char_eq_of_toNat h1)))))))))
  · exact Or.inr (Or.inr (Or.inr (Or.inr (Or.inr (Or.inr (Or.inr (Or.inr (Or.inr (Or.inl (char_eq_of_toNat h1))))))))))
  · exact Or.inr (Or.inr (Or.inr (Or.inr (Or.inr (Or.inr (Or.inr (Or.inr (Or.inr (Or.inr (Or.inl (char_eq_of_toNat h1)))))))))))
  · exact Or.inr (Or.inr (Or.inr (Or.inr (Or.inr (Or.inr (Or.inr (Or.inr (Or.inr (Or.inr (Or.inr (Or.inl (char_eq_of_toNat h1))))))))))))
  · exact Or.inr (Or.inr (Or.inr (Or.inr (Or.inr (Or.inr (Or.inr (Or.inr (Or.inr (Or.inr (Or.inr (Or.inr (Or.inl (char_eq_of_toNat h1)))))))))))))
  · exact Or.inr (Or.inr (Or.inr (Or.inr (Or.inr (Or.inr (Or.inr (Or.inr (Or.inr (Or.inr (Or.inr (Or.inr (Or.inr (Or.inl (char_eq_of_toNat h1))))))))))))))
  · exact Or.inr (Or.inr (Or.inr (Or.inr (Or.inr (Or.inr (Or.inr (Or.inr (Or.inr (Or.inr (Or.inr (Or.inr (Or.inr (Or.inr (Or.inl (char_eq_of_toNat h1)))))))))))))))
  · exact Or.inr (Or.inr (Or.inr (Or.inr (Or.inr (Or.inr (Or.inr (Or.inr (Or.inr (Or.inr (Or.inr (Or.inr (Or.inr (Or.inr (Or.inr (Or.inl (char_eq_of_toNat h1))))))))))))))))
  · exact Or.inr (Or.inr (Or.inr (Or.inr (Or.inr (Or.inr (Or.inr (Or.inr (Or.inr (Or.inr (Or.inr (Or.inr (Or.inr (Or.inr (Or.inr (Or.inr (Or.inl (char_eq_of_toNat h1)))))))))))))))))
  · exact Or.inr (Or.inr (Or.inr (Or.inr (Or.inr (Or.inr (Or.inr (Or.inr (Or.inr (Or.inr (Or.inr (Or.inr (Or.inr (Or.inr (Or.inr (Or.inr (Or.inr (Or.inl (char_eq_of_toNat h1))))))))))))))))))
  · exact Or.inr (Or.inr (Or.inr (Or.inr (Or.inr (Or.inr (Or.inr (Or.inr (Or.inr (Or.inr (Or.inr (Or.inr (Or.inr (Or.inr (Or.inr (Or.inr (Or.inr (Or.inr (Or.inl (char_eq_of_toNat h1)))))))))))))))))))
  · exact Or.inr (Or.inr (Or.inr (Or.inr (Or.inr (Or.inr (Or.inr (Or.inr (Or.inr (Or.inr (Or.inr (Or.inr (Or.inr (Or.inr (Or.inr (Or.inr (Or.inr (Or.inr (Or.inr (Or.inl (char_eq_of_toNat h1))))))))))))))))))))
  · exact Or.inr (Or.inr (Or.inr (Or.inr (Or.inr (Or.inr (Or.inr (Or.inr (Or.inr (Or.inr (Or.inr (Or.inr (Or.inr (Or.inr (Or.inr (Or.inr (Or.inr (Or.inr (Or.inr (Or.inr (Or.inl (char_eq_of_toNat h1)))))))))))))))))))))
  · exact Or.inr (Or.inr (Or.inr (Or.inr (Or.inr (Or.inr (Or.inr (Or.inr (Or.inr (Or.inr (Or.inr (Or.inr (Or.inr (Or.inr (Or.inr (Or.inr (Or.inr (Or.inr (Or.inr (Or.inr (Or.inr (Or.inl (char_eq_of_toNat h1))))))))))))))))))))))
  · exact Or.inr (Or.inr (Or.inr (Or.inr (Or.inr (Or.inr (Or.inr (Or.inr (Or.inr (Or.inr (Or.inr (Or.inr (Or.inr (Or.inr (Or.inr (Or.inr (Or.inr (Or.inr (Or.inr (Or.inr (Or.inr (Or.inr (Or.inl (char_eq_of_toNat h1)))))))))))))))))))))))
  · exact Or.inr (Or.inr (Or.inr (Or.inr (Or.inr (Or.inr (Or.inr (Or.inr (Or.inr (Or.inr (Or.inr (Or.inr (Or.inr (Or.inr (Or.inr (Or.inr (Or.inr (Or.inr (Or.inr (Or.inr (Or.inr (Or.inr (Or.inr (Or.inl (char_eq_of_toNat h1))))))))))))))))))))))))
  · exact Or.inr (Or.inr (Or.inr (Or.inr (Or.inr (Or.inr (Or.inr (Or.inr (Or.inr (Or.inr (Or.inr (Or.inr (Or.inr (Or.inr (Or.inr (Or.inr (Or.inr (Or.inr (Or.inr (Or.inr (Or.inr (Or.inr (Or.inr (Or.inr (Or.inl (char_eq_of_toNat h1)))))))))))))))))))))))))
  · exact Or.inr (Or.inr (Or.inr (Or.inr (Or.inr (Or.inr (Or.inr (Or.inr (Or.inr (Or.inr (Or.inr (Or.inr (Or.inr (Or.inr (Or.inr (Or.inr (Or.inr (Or.inr (Or.inr (Or.inr (Or.inr (Or.inr (Or.inr (Or.inr (Or.inr (char_eq_of_toNat h1)))))))))))))))))))))))))

theorem digit_enum {c : Char} (h : isDigitCh c = true) :
    c = '0' ∨ c = '1' ∨ c = '2' ∨ c = '3' ∨ c = '4' ∨ c = '5' ∨ c = '6' ∨ c = '7' ∨ c = '8' ∨ c = '9' := by
  simp only [isDigitCh, Bool.and_eq_true, decide_eq_true_eq] at h
  have h26 : c.toNat = 48 ∨ c.toNat = 49 ∨ c.toNat = 50 ∨ c.toNat = 51 ∨ c.toNat = 52 ∨ c.toNat = 53 ∨ c.toNat = 54 ∨ c.toNat = 55 ∨ c.toNat = 56 ∨ c.toNat = 57 := by omega
  rcases h26 with h1|h1|h1|h1|h1|h1|h1|h1|h1|h1
  · exact Or.inl (char_eq_of_toNat h1)
  · exact Or.inr (Or.inl (char_eq_of_toNat h1))
  · exact Or.inr (Or.inr (Or.inl (char_eq_of_toNat h1)))
  · exact Or.inr (Or.inr (Or.inr (Or.inl (char_eq_of_toNat h1))))
  · exact Or.inr (Or.inr (Or.inr (Or.inr (Or.inl (char_eq_of_toNat h1)))))
  · exact Or.inr (Or.inr (Or.inr (Or.inr (Or.inr (Or.inl (char_eq_of_toNat h1))))))
  · exact Or.inr (Or.inr (Or.inr (Or.inr (Or.inr (Or.inr (Or.inl (char_eq_of_toNat h1)))))))
  · exact Or.inr (Or.inr (Or.inr (Or.inr (Or.inr (Or.inr (Or.inr (Or.inl (char_eq_of_toNat h1))))))))
  · exact Or.inr (Or.inr (Or.inr (Or.inr (Or.inr (Or.inr (Or.inr (Or.inr (Or.inl (char_eq_of_toNat h1)))))))))
  · exact Or.inr (Or.inr (Or.inr (Or.inr (Or.inr (Or.inr (Or.inr (Or.inr (Or.inr (char_eq_of_toNat h1)))))))))

theorem ABCread_facts {c : Char} (h : isUpper c = true) :
    subABCLetters [c] ≠ [] ∧ ∀ d ∈ subABCLetters [c], isLatin d = false := by
  rcases upper_enum h with h1|h1|h1|h1|h1|h1|h1|h1|h1|h1|h1|h1|h1|h1|h1|h1|h1|h1|h1|h1|h1|h1|h1|h1|h1|h1
  all_goals subst h1
  all_goals exact ⟨by decide, by decide⟩

theorem abcCount_eq (i : Nat) (l : List Char) :
    (finditerABC i l).length = abcCount l := by
  induction l generalizing i with
  | nil => rfl
  | cons c rest ih =>
    rw [finditerABC, abcCount]
    by_cases h : abcCond c rest.head? = true
    · rw [if_pos h, if_pos h]
      simp only [List.length_cons]
      rw [ih]
      omega
    · rw [if_neg h, if_neg h]
      rw [ih]
      omega

theorem finditerABC_decomp : ∀ {i : Nat} {l : List Char} {j k : Nat} {c : Char}
    {ms : List ((Nat × Nat) × Char)}, finditerABC i l = ((j, k), c) :: ms →
    ∃ pre suf, l = pre ++ c :: suf ∧ j = i + pre.length ∧ k = j + 1 ∧
      abcClean pre (c :: suf) ∧ abcCond c suf.head? = true := by
  intro i l
  induction l generalizing i with
  | nil => intro j k c ms h; cases h
  | cons a rest ih =>
    intro j k c ms h
    rw [finditerABC] at h
    by_cases ha : abcCond a rest.head? = true
    · rw [if_pos ha] at h
      injection h with h1 h2
      simp only [Prod.mk.injEq] at h1
      obtain ⟨⟨hj, hk⟩, hac⟩ := h1
      refine ⟨[], rest, ?_, ?_, ?_, trivial, ?_⟩
      · rw [hac]
        rfl
      · simp [← hj]
      · omega
      · rw [← hac]
        exact ha
    · rw [if_neg ha] at h
      obtain ⟨pre, suf, hl, hj, hk, hclean, hcond⟩ := ih h
      have ha2 : abcCond a rest.head? = false := by simpa using ha
      refine ⟨a :: pre, suf, by rw [List.cons_append, hl], ?_, hk, ?_, hcond⟩
      · simp only [List.length_cons]
        omega
      · refine ⟨?_, hclean⟩
        rw [← hl]
        exact ha2

theorem specABC_append_clean : ∀ {pre rest : List Char}, abcClean pre rest →
    specABC (pre ++ rest) = pre ++ specABC rest := by
  intro pre
  induction pre with
  | nil => intro rest _; rfl
  | cons a t ih =>
    intro rest hc
    rw [List.cons_append, specABC, if_neg (by rw [hc.1]; exact Bool.false_ne_true)]
    rw [ih hc.2, List.cons_append]

theorem abcCount_append_clean : ∀ {pre rest : List Char}, abcClean pre rest →
    abcCount (pre ++ rest) = abcCount rest := by
  intro pre
  induction pre with
  | nil => intro rest _; rfl
  | cons a t ih =>
    intro rest hc
    rw [List.cons_append, abcCount, hc.1, ih hc.2]
    simp

theorem latin_false_not_upper {c : Char} (h : isLatin c = false) : isUpper c = false := by
  simp only [isLatin, Bool.or_eq_false_iff] at h
  exact h.1

theorem latin_false_not_lower {c : Char} (h : isLatin c = false) : isLower c = false := by
  simp only [isLatin, Bool.or_eq_false_iff] at h
  exact h.2

theorem upper_not_lower {c : Char} (h : isUpper c = true) : isLower c = false := by
  simp only [isUpper, Bool.and_eq_true, decide_eq_true_eq] at h
  simp only [isLower, Bool.and_eq_false_iff, decide_eq_false_iff_not]
  omega

theorem abcClean_of_latin_free : ∀ {r : List Char}, (∀ d ∈ r, isLatin d = false) →
    ∀ suf, abcClean r suf := by
  intro r
  induction r with
  | nil => intro _ suf; trivial
  | cons d t ih =>
    intro hr suf
    refine ⟨?_, ih (fun e he => hr e (by simp [he])) suf⟩
    simp only [abcCond]
    rw [latin_false_not_upper (hr d (by simp))]
    rfl

theorem abcClean_replace : ∀ {pre : List Char} {c : Char} {suf r : List Char},
    isLower c = false → r ≠ [] → (∀ d ∈ r, isLatin d = false) →
    abcClean pre (c :: suf) → abcClean pre (r ++ suf) := by
  intro pre
  induction pre with
  | nil => intro c suf r _ _ _ _; trivial
  | cons a t ih =>
    intro c suf r hcl hrne hrlat hc
    refine ⟨?_, ih hcl hrne hrlat hc.2⟩
    cases t with
    | cons b t2 => exact hc.1
    | nil =>
      have h1 := hc.1
      simp only [List.nil_append, List.head?_cons] at h1 ⊢
      cases r with
      | nil => exact absurd rfl hrne
      | cons r0 r1 =>
        simp only [List.cons_append, List.head?_cons]
        simp only [abcCond, Option.any_some] at h1 ⊢
        rw [hcl] at h1
        simp only [Bool.not_false, Bool.and_true] at h1
        simp [h1]

theorem specABC_of_count_zero : ∀ {l : List Char}, abcCount l = 0 → specABC l = l := by
  intro l
  induction l with
  | nil => intro _; rfl
  | cons c rest ih =>
    intro h
    rw [abcCount] at h
    by_cases hc : abcCond c rest.head? = true
    · rw [if_pos hc] at h; omega
    · rw [if_neg hc] at h
      rw [specABC, if_neg hc, ih (by omega)]


theorem readABCLoop_spec : ∀ (n : Nat) (l : List Char), abcCount l = n →
    readABCLoop n l = some (specABC l) := by
  intro n
  induction n with
  | zero =>
    intro l h0
    rw [readABCLoop, specABC_of_count_zero h0]
  | succ n ih =>
    intro l h0
    rcases hf : finditerABC 0 l with _ | ⟨⟨⟨j, k⟩, c⟩, ms⟩
    · have hc := abcCount_eq 0 l
      rw [hf, h0] at hc
      simp at hc
    · obtain ⟨pre, suf, hl, hj, hk, hclean, hcond⟩ := finditerABC_decomp hf
      have hupper : isUpper c = true := by
        have h2 := hcond
        simp only [abcCond, Bool.and_eq_true] at h2
        exact h2.1
      obtain ⟨hrne, hrlat⟩ := ABCread_facts hupper
      obtain ⟨r, hr⟩ : ∃ r, subABCLetters [c] = r := ⟨_, rfl⟩
      rw [hr] at hrne hrlat
      have htake : l.take j = pre := by
        rw [hl, hj]
        simp only [Nat.zero_add]
        exact List.take_left pre (c :: suf)
      have hdrop : l.drop k = suf := by
        have hpc : pre ++ c :: suf = (pre ++ [c]) ++ suf := by simp
        rw [hl, hpc]
        refine List.drop_left' ?_
        simp only [List.length_append, List.length_cons, List.length_nil]
        omega
      have hrepl : replaceSubstring l (subABCLetters [c]) (j, k) = pre ++ r ++ suf := by
        rw [replaceSubstring]
        rw [show ((j, k) : Nat × Nat).1 = j from rfl, show ((j, k) : Nat × Nat).2 = k from rfl]
        rw [htake, hdrop, hr]
      have hcsuf : abcCount (c :: suf) = 1 + abcCount suf := by
        rw [abcCount, if_pos hcond]
      have hcl2 : abcClean pre (r ++ suf) :=
        abcClean_replace (upper_not_lower hupper) hrne hrlat hclean
      have hclr : abcClean r suf := abcClean_of_latin_free hrlat suf
      have hcount : abcCount (pre ++ r ++ suf) = n := by
        rw [List.append_assoc]
        rw [abcCount_append_clean hcl2, abcCount_append_clean hclr]
        rw [hl, abcCount_append_clean hclean, hcsuf] at h0
        omega
      have hspec : specABC (pre ++ r ++ suf) = specABC l := by
        rw [List.append_assoc]
        rw [specABC_append_clean hcl2, specABC_append_clean hclr]
        rw [hl, specABC_append_clean hclean]
        rw [specABC, if_pos hcond, hr]
      rw [readABCLoop, hf]
      show readABCLoop n (replaceSubstring l (subABCLetters [c]) (j, k)) = some (specABC l)
      rw [hrepl, ih _ hcount, hspec]

/-- C3 counterexample: a capital Latin letter at the end of the line is NOT
substituted by `readABC` — the lookahead `[^a-z]` of `[A-Z](?=[^a-z])`
demands an actual following character, so it fails at end of line, and the
final `C` here survives even though the table would read it `씨`.  This
refutes the quantifier of the claim, which includes line-final capitals. -/
theorem readABC_counterexample :
    readABC ['C'] = some ['C'] ∧ subABCLetters ['C'] = "씨".toList := by decide

/-- C3 (amended): `readABC` substitutes the fixed 26-entry Korean
letter-name spelling for every occurrence of a capital Latin letter that is
immediately followed by a character other than a small Latin letter; a
capital with no following character (at the end of the line) is not
matched and is left for the general alphabetic pass.  The loop with its
take-first/rescan discipline equals the single left-to-right pass
`specABC`, and in particular its indexing is safe (it never returns
`none`). -/
theorem readABC_eq_spec (l : List Char) : readABC l = some (specABC l) := by
  simp only [readABC]
  by_cases h : 0 < (finditerABC 0 l).length
  · rw [if_pos h]
    exact readABCLoop_spec _ l (abcCount_eq 0 l).symm
  · rw [if_neg h]
    have h0 : abcCount l = 0 := by
      rw [← abcCount_eq 0 l]
      omega
    rw [specABC_of_count_zero h0]


theorem dropWhile_append_all {p : Char → Bool} {t x : List Char}
    (h : ∀ c ∈ t, p c = true) : (t ++ x).dropWhile p = x.dropWhile p := by
  induction t with
  | nil => rfl
  | cons a t2 ih =>
    rw [List.cons_append, List.dropWhile_cons, if_pos (h a (by simp))]
    exact ih fun c hc => h c (by simp [hc])

theorem takeWhile_append_all {p : Char → Bool} {t x : List Char}
    (h : ∀ c ∈ t, p c = true) : (t ++ x).takeWhile p = t ++ x.takeWhile p := by
  induction t with
  | nil => rfl
  | cons a t2 ih =>
    rw [List.cons_append, List.takeWhile_cons, if_pos (h a (by simp))]
    rw [ih fun c hc => h c (by simp [hc]), List.cons_append]

theorem not_digit_chars {c : Char} (h : isDigitCh c = false) :
    c ≠ '0' ∧ c ≠ '1' ∧ c ≠ '2' ∧ c ≠ '3' ∧ c ≠ '4' ∧ c ≠ '5' ∧ c ≠ '6' ∧
    c ≠ '7' ∧ c ≠ '8' ∧ c ≠ '9' := by
  refine ⟨?_, ?_, ?_, ?_, ?_, ?_, ?_, ?_, ?_, ?_⟩
  all_goals intro he
  all_goals rw [he] at h
  all_goals exact absurd h (by decide)

theorem digitKor_not_digit {c : Char} (h : isDigitCh c = true) :
    isDigitCh (digitKor c) = false := by
  rcases digit_enum h with h1|h1|h1|h1|h1|h1|h1|h1|h1|h1
  all_goals subst h1
  all_goals decide

theorem digit_ne_dot {c : Char} (h : isDigitCh c = true) : c ≠ '.' := by
  intro he
  rw [he] at h
  exact absurd h (by decide)

theorem subChar_id {a b : Char} {l : List Char} (h : ∀ c ∈ l, ¬ c = a) :
    subChar a b l = l := by
  simp only [subChar]
  calc l.map (fun c => if c = a then b else c) = l.map id :=
        List.map_congr_left fun c hc => (if_neg (h c hc)).trans rfl
    _ = l := List.map_id l

theorem digitChain_append (x y : List Char) :
    digitChain (x ++ y) = digitChain x ++ digitChain y := by
  simp only [digitChain, subChar, List.map_append]

theorem digitChain_clean {r : List Char} (hd : ∀ c ∈ r, isDigitCh c = false)
    (hdot : ∀ c ∈ r, ¬ c = '.') : digitChain r = r := by
  unfold digitChain
  rw [subChar_id hdot]
  rw [subChar_id fun c hc => (not_digit_chars (hd c hc)).1]
  rw [subChar_id fun c hc => (not_digit_chars (hd c hc)).2.1]
  rw [subChar_id fun c hc => (not_digit_chars (hd c hc)).2.2.1]
  rw [subChar_id fun c hc => (not_digit_chars (hd c hc)).2.2.2.1]
  rw [subChar_id fun c hc => (not_digit_chars (hd c hc)).2.2.2.2.1]
  rw [subChar_id fun c hc => (not_digit_chars (hd c hc)).2.2.2.2.2.1]
  rw [subChar_id fun c hc => (not_digit_chars (hd c hc)).2.2.2.2.2.2.1]
  rw [subChar_id fun c hc => (not_digit_chars (hd c hc)).2.2.2.2.2.2.2.1]
  rw [subChar_id fun c hc => (not_digit_chars (hd c hc)).2.2.2.2.2.2.2.2.1]
  rw [subChar_id fun c hc => (not_digit_chars (hd c hc)).2.2.2.2.2.2.2.2.2]

theorem digitChain_digit_single {f : Char} (hf : isDigitCh f = true) :
    digitChain [f] = [digitKor f] := by
  rcases digit_enum hf with h1|h1|h1|h1|h1|h1|h1|h1|h1|h1
  all_goals subst h1
  all_goals decide

theorem digitChain_digits {fs : List Char} (h : ∀ c ∈ fs, isDigitCh c = true) :
    digitChain fs = fs.map digitKor := by
  induction fs with
  | nil => rfl
  | cons f t ih =>
    have h0 : f :: t = [f] ++ t := rfl
    rw [h0, digitChain_append, digitChain_digit_single (h f (by simp)),
      ih fun c hc => h c (by simp [hc])]
    simp

theorem digitChain_dot : digitChain ['.'] = ['점'] := by decide


theorem takeWhile_all {p : Char → Bool} {l : List Char} (h : ∀ c ∈ l, p c = true) :
    l.takeWhile p = l := by
  induction l with
  | nil => rfl
  | cons a t ih =>
    rw [List.takeWhile_cons, if_pos (h a (by simp)), ih fun c hc => h c (by simp [hc])]

theorem subDigitRunsBeforeDot_all_digits (r : List Char) {fs : List Char}
    (h : ∀ c ∈ fs, isDigitCh c = true) : subDigitRunsBeforeDot r fs = fs := by
  cases fs with
  | nil => rw [subDigitRunsBeforeDot]
  | cons f t =>
    have ht : ∀ c ∈ t, isDigitCh c = true := fun c hc => h c (by simp [hc])
    have hdrop : t.dropWhile isDigitCh = [] := List.dropWhile_eq_nil_iff.mpr ht
    rw [subDigitRunsBeforeDot, if_pos (h f (by simp))]
    rw [if_neg (by rw [hdrop]; simp)]
    rw [takeWhile_all ht, hdrop]
    rw [subDigitRunsBeforeDot]
    simp

theorem dot_not_digit : isDigitCh '.' = false := by decide

/-- C6: on a floating-point numeric token `ds.fs` (a digit run, a decimal
point, a digit run), the per-token transform of `readNumber` produces the
external reader's reading of the integer part, the decimal point replaced
by `점`, and each fractional digit replaced individually by its
single-syllable Korean reading; the resulting token contains no digit
characters.  The reader's output is assumed free of digits and periods, as
the claim's appeal to "the external digit reader's reading" presumes. -/
theorem readNumToken_float (reader : Nat → List Char) (ds fs : List Char)
    (hds : ds ≠ []) (hdsd : ∀ c ∈ ds, isDigitCh c = true)
    (hfs : ∀ c ∈ fs, isDigitCh c = true)
    (hrd : ∀ c ∈ reader (digitsToNat ds), isDigitCh c = false)
    (hrdot : ∀ c ∈ reader (digitsToNat ds), ¬ c = '.') :
    readNumToken reader (ds ++ '.' :: fs) =
      some (reader (digitsToNat ds) ++ '점' :: fs.map digitKor) ∧
    ∀ c ∈ reader (digitsToNat ds) ++ '점' :: fs.map digitKor, isDigitCh c = false := by
  constructor
  · have hany : (ds ++ '.' :: fs).any (fun c => c = '.') = true := by
      simp
    cases ds with
    | nil => exact absurd rfl hds
    | cons d t =>
      have htd : ∀ c ∈ t, isDigitCh c = true := fun c hc => hdsd c (by simp [hc])
      have hdropt : (t ++ '.' :: fs).dropWhile isDigitCh = '.' :: fs := by
        rw [dropWhile_append_all htd, List.dropWhile_cons, if_neg (by rw [dot_not_digit]; simp)]
      have htaket : (t ++ '.' :: fs).takeWhile isDigitCh = t := by
        rw [takeWhile_append_all htd, List.takeWhile_cons,
          if_neg (by rw [dot_not_digit]; simp)]
        simp
      have hfirst : firstDigitRunBeforeDot ((d :: t) ++ '.' :: fs) = some (d :: t) := by
        rw [List.cons_append, firstDigitRunBeforeDot, if_pos (hdsd d (by simp))]
        rw [if_pos (by rw [hdropt]; simp)]
        rw [htaket]
      have hsub : subDigitRunsBeforeDot (reader (digitsToNat (d :: t)))
          ((d :: t) ++ '.' :: fs) = reader (digitsToNat (d :: t)) ++ '.' :: fs := by
        rw [List.cons_append, subDigitRunsBeforeDot, if_pos (hdsd d (by simp))]
        rw [if_pos (by rw [hdropt]; simp), hdropt]
        rw [subDigitRunsBeforeDot, if_neg (by rw [dot_not_digit]; simp)]
        rw [subDigitRunsBeforeDot_all_digits _ hfs]
      rw [readNumToken, if_pos hany, hfirst]
      show some (digitChain (subDigitRunsBeforeDot (reader (digitsToNat (d :: t)))
        ((d :: t) ++ '.' :: fs))) = _
      rw [hsub]
      have hsplit : reader (digitsToNat (d :: t)) ++ '.' :: fs =
          reader (digitsToNat (d :: t)) ++ ['.'] ++ fs := by simp
      rw [hsplit, digitChain_append, digitChain_append]
      rw [digitChain_clean hrd hrdot, digitChain_dot, digitChain_digits hfs]
      simp
  · intro c hc
    rw [List.mem_append] at hc
    rcases hc with hc | hc
    · exact hrd c hc
    · rw [List.mem_cons] at hc
      rcases hc with hc | hc
      · rw [hc]; decide
      · rw [List.mem_map] at hc
        obtain ⟨d, hd, hdc⟩ := hc
        rw [← hdc]
        exact digitKor_not_digit (hfs d hd)

/-- C6 witness: the theorem applied at the token `3.14` with a reader that
reads 3 as `삼`. -/
theorem readNumToken_float_witness :
    readNumToken (fun _ => "삼".toList) (['3'] ++ '.' :: ['1', '4']) =
      some ((fun _ : Nat => "삼".toList) (digitsToNat ['3']) ++
        '점' :: ['1', '4'].map digitKor) ∧
    ∀ c ∈ (fun _ : Nat => "삼".toList) (digitsToNat ['3']) ++
        '점' :: ['1', '4'].map digitKor, isDigitCh c = false :=
  readNumToken_float (fun _ => "삼".toList) ['3'] ['1', '4'] (by decide) (by decide)
    (by decide) (by decide) (by decide)


theorem drop_len_takeWhile (p : Char → Bool) (l : List Char) :
    l.drop (l.takeWhile p).length = l.dropWhile p := by
  induction l with
  | nil => rfl
  | cons c rest ih =>
    rw [List.takeWhile_cons, List.dropWhile_cons]
    by_cases h : p c = true
    · rw [if_pos h, if_pos h]
      simpa using ih
    · rw [if_neg h, if_neg h]
      simp

theorem dropWhile_head_false {p : Char → Bool} {l : List Char} {d : Char} {t : List Char}
    (h : l.dropWhile p = d :: t) : p d = false := by
  induction l with
  | nil => cases h
  | cons c rest ih =>
    rw [List.dropWhile_cons] at h
    by_cases hc : p c = true
    · rw [if_pos hc] at h
      exact ih h
    · rw [if_neg hc] at h
      cases h
      simpa using hc

theorem takeWhile_as_take (p : Char → Bool) (l : List Char) :
    l.take (l.takeWhile p).length = l.takeWhile p := by
  induction l with
  | nil => rfl
  | cons c rest ih =>
    rw [List.takeWhile_cons]
    by_cases h : p c = true
    · rw [if_pos h]
      simp only [List.length_cons, List.take_succ_cons]
      rw [ih]
    · rw [if_neg h]
      simp

theorem numTokenLen_none_not_digit {c : Char} {t : List Char}
    (h : numTokenLen (c :: t) = none) : isDigitCh c = false := by
  rw [numTokenLen] at h
  by_cases hc : isDigitCh c = true
  · rw [if_pos hc] at h
    cases h
  · simpa using hc

theorem numLenDigits_drop_head {l : List Char} {d : Char}
    (h : (l.drop (numLenDigits l)).head? = some d) : isDigitCh d = false := by
  rw [numLenDigits] at h
  split at h
  · rename_i r2 hr2
    have e1 : l.drop ((l.takeWhile isDigitCh).length + 1 + (r2.takeWhile isDigitCh).length)
        = r2.drop (r2.takeWhile isDigitCh).length := by
      rw [show (l.takeWhile isDigitCh).length + 1 + (r2.takeWhile isDigitCh).length
          = (l.takeWhile isDigitCh).length + (1 + (r2.takeWhile isDigitCh).length) from by
        omega]
      rw [← List.drop_drop, hr2]
      rw [show 1 + (r2.takeWhile isDigitCh).length
          = (r2.takeWhile isDigitCh).length + 1 from by omega]
      rw [List.drop_succ_cons]
    rw [e1, drop_len_takeWhile] at h
    match h2 : r2.dropWhile isDigitCh with
    | [] => rw [h2] at h; cases h
    | e :: t2 =>
      rw [h2] at h
      cases h
      exact dropWhile_head_false h2
  · rw [drop_len_takeWhile] at h
    match h2 : l.dropWhile isDigitCh with
    | [] => rw [h2] at h; cases h
    | e :: t2 =>
      rw [h2] at h
      cases h
      exact dropWhile_head_false h2

theorem numTokenLen_drop_head {l : List Char} {n : Nat} {d : Char}
    (hn : numTokenLen l = some n) (h : (l.drop n).head? = some d) :
    isDigitCh d = false := by
  cases l with
  | nil => cases hn
  | cons c rest =>
    rw [numTokenLen] at hn
    by_cases hc : isDigitCh c = true
    · rw [if_pos hc] at hn
      cases hn
      exact numLenDigits_drop_head h
    · rw [if_neg hc] at hn
      by_cases hs : ((c = '+' || c = '-') && rest.head?.any isDigitCh) = true
      · rw [if_pos hs] at hn
        cases hn
        rw [show (1 + numLenDigits rest) = numLenDigits rest + 1 from by omega,
          List.drop_succ_cons] at h
        exact numLenDigits_drop_head h
      · rw [if_neg hs] at hn
        cases hn

theorem numCount_eq (i : Nat) (l : List Char) :
    (finditerNum i l).length = numCount l := by
  induction l using numCount.induct generalizing i with
  | case1 => rw [finditerNum, numCount]; rfl
  | case2 c rest n h ih =>
    rw [finditerNum, numCount, h]
    simp only [List.length_cons, ih]
    omega
  | case3 c rest h ih =>
    rw [finditerNum, numCount, h]
    exact ih (i + 1)

theorem numCount_cons_some {rest : List Char} {n : Nat} (h : numTokenLen rest = some n) :
    numCount rest = 1 + numCount (rest.drop n) := by
  cases rest with
  | nil => cases h
  | cons c t => rw [numCount, h]

theorem finditerNum_decomp : ∀ {i : Nat} {l : List Char} {j k : Nat} {m : List Char}
    {ms : List ((Nat × Nat) × List Char)}, finditerNum i l = ((j, k), m) :: ms →
    ∃ pre rest n, l = pre ++ rest ∧ numTokenLen rest = some n ∧ m = rest.take n ∧
      j = i + pre.length ∧ k = j + n ∧ numClean pre rest := by
  intro i l
  induction l using numCount.induct generalizing i with
  | case1 => intro j k m ms hf; rw [finditerNum] at hf; cases hf
  | case2 c rest n h ih =>
    intro j k m ms hf
    rw [finditerNum, h] at hf
    injection hf with h1 h2
    simp only [Prod.mk.injEq] at h1
    obtain ⟨⟨hj, hk⟩, hm⟩ := h1
    exact ⟨[], c :: rest, n, rfl, h, hm.symm, by simp [hj], by omega, trivial⟩
  | case3 c rest h ih =>
    intro j k m ms hf
    rw [finditerNum, h] at hf
    obtain ⟨pre, rest2, n, hl, hn, hm, hj, hk, hclean⟩ := ih hf
    refine ⟨c :: pre, rest2, n, by rw [List.cons_append, ← hl], hn, hm, ?_, hk, ?_, hclean⟩
    · simp only [List.length_cons]
      omega
    · rw [← hl]
      exact h

theorem numClean_append_count : ∀ {pre rest : List Char}, numClean pre rest →
    numCount (pre ++ rest) = numCount rest := by
  intro pre
  induction pre with
  | nil => intro rest _; rfl
  | cons a t ih =>
    intro rest hc
    rw [List.cons_append, numCount, hc.1]
    exact ih hc.2

theorem numClean_retarget : ∀ {pre rest rest' : List Char}, numClean pre rest →
    (∀ d, rest'.head? = some d → isDigitCh d = false) → numClean pre rest' := by
  intro pre
  induction pre with
  | nil => intro _ _ _ _; trivial
  | cons a t ih =>
    intro rest rest' hc hd
    refine ⟨?_, ih hc.2 hd⟩
    cases t with
    | cons b t2 =>
      have h1 := hc.1
      rw [List.cons_append, numTokenLen] at h1
      rw [List.cons_append, numTokenLen]
      by_cases hda : isDigitCh a = true
      · rw [if_pos hda] at h1
        cases h1
      · rw [if_neg hda] at h1 ⊢
        simp only [List.head?_cons, Option.any_some] at h1 ⊢
        by_cases hs : ((a = '+' || a = '-') && isDigitCh b) = true
        · rw [if_pos hs] at h1
          cases h1
        · rw [if_neg hs]
    | nil =>
      have hda : isDigitCh a = false := numTokenLen_none_not_digit hc.1
      simp only [List.nil_append]
      rw [numTokenLen, if_neg (by simp [hda])]
      have h2 : rest'.head?.any isDigitCh = false := by
        cases hh : rest'.head? with
        | none => rfl
        | some d => simpa using hd d hh
      rw [if_neg (by rw [h2]; simp)]

theorem numClean_of_digit_free : ∀ {m : List Char} {cont : List Char},
    (∀ c ∈ m, isDigitCh c = false) →
    (∀ d, cont.head? = some d → isDigitCh d = false) → numClean m cont := by
  intro m
  induction m with
  | nil => intro _ _ _; trivial
  | cons a t ih =>
    intro cont hm hd
    refine ⟨?_, ih (fun c hc => hm c (by simp [hc])) hd⟩
    have hda : isDigitCh a = false := hm a (by simp)
    rw [numTokenLen, if_neg (by simp [hda])]
    have h2 : (t ++ cont).head?.any isDigitCh = false := by
      cases t with
      | cons b t2 => simpa using hm b (by simp)
      | nil =>
        simp only [List.nil_append]
        cases hh : cont.head? with
        | none => rfl
        | some d => simpa using hd d hh
    rw [if_neg (by rw [h2]; simp)]


theorem subChar_mem {a b c : Char} {l : List Char} (h : c ∈ subChar a b l) :
    c = b ∨ (c ∈ l ∧ ¬ c = a) := by
  simp only [subChar, List.mem_map] at h
  obtain ⟨x, hx, hxc⟩ := h
  by_cases hxa : x = a
  · rw [if_pos hxa] at hxc
    exact Or.inl hxc.symm
  · rw [if_neg hxa] at hxc
    exact Or.inr ⟨hxc ▸ hx, hxc ▸ hxa⟩

theorem digitChain_digit_free (l : List Char) : ∀ c ∈ digitChain l, isDigitCh c = false := by
  intro c hc
  unfold digitChain at hc
  rcases subChar_mem hc with h | ⟨hc, n9⟩
  · rw [h]; decide
  rcases subChar_mem hc with h | ⟨hc, n8⟩
  · rw [h]; decide
  rcases subChar_mem hc with h | ⟨hc, n7⟩
  · rw [h]; decide
  rcases subChar_mem hc with h | ⟨hc, n6⟩
  · rw [h]; decide
  rcases subChar_mem hc with h | ⟨hc, n5⟩
  · rw [h]; decide
  rcases subChar_mem hc with h | ⟨hc, n4⟩
  · rw [h]; decide
  rcases subChar_mem hc with h | ⟨hc, n3⟩
  · rw [h]; decide
  rcases subChar_mem hc with h | ⟨hc, n2⟩
  · rw [h]; decide
  rcases subChar_mem hc with h | ⟨hc, n1⟩
  · rw [h]; decide
  rcases subChar_mem hc with h | ⟨hc, n0⟩
  · rw [h]; decide
  rcases subChar_mem hc with h | ⟨hc, ndot⟩
  · rw [h]; decide
  by_contra hd
  have hd2 : isDigitCh c = true := by simpa using hd
  rcases digit_enum hd2 with h|h|h|h|h|h|h|h|h|h
  · exact n0 h
  · exact n1 h
  · exact n2 h
  · exact n3 h
  · exact n4 h
  · exact n5 h
  · exact n6 h
  · exact n7 h
  · exact n8 h
  · exact n9 h

theorem subDigitRuns_mem (r l : List Char) : ∀ c ∈ subDigitRuns r l,
    c ∈ r ∨ (c ∈ l ∧ isDigitCh c = false) := by
  induction l using subDigitRuns.induct with
  | r => exact r
  | case1 =>
    intro c hc
    rw [subDigitRuns.eq_def] at hc
    simp at hc
  | case2 a rest ha ih =>
    intro c hc
    rw [subDigitRuns.eq_def] at hc
    simp only [if_pos ha] at hc
    have hc2 := hc
    rcases List.mem_append.mp hc2 with h | h
    · exact Or.inl h
    · rcases ih c h with h | ⟨h1, h2⟩
      · exact Or.inl h
      · exact Or.inr ⟨List.mem_cons_of_mem a ((List.dropWhile_suffix isDigitCh).subset h1), h2⟩
  | case3 a rest ha ih =>
    intro c hc
    rw [subDigitRuns.eq_def] at hc
    simp only [if_neg ha] at hc
    have hc2 := hc
    rcases List.mem_cons.mp hc2 with h | h
    · rw [h]
      refine Or.inr ⟨List.mem_cons_self a rest, ?_⟩
      simpa using ha
    · rcases ih c h with h | ⟨h1, h2⟩
      · exact Or.inl h
      · exact Or.inr ⟨List.mem_cons_of_mem a h1, h2⟩

theorem numLenDigits_take_shape {c : Char} {t : List Char} (hc : isDigitCh c = true) :
    ∃ ds tail, (c :: t).take (numLenDigits (c :: t)) = ds ++ tail ∧ ds ≠ [] ∧
      (∀ d ∈ ds, isDigitCh d = true) ∧
      (tail = [] ∨ ∃ fs, tail = '.' :: fs ∧ ∀ d ∈ fs, isDigitCh d = true) := by
  have hmem : ∀ d ∈ (c :: t).takeWhile isDigitCh, isDigitCh d = true :=
    fun d hd => List.mem_takeWhile_imp hd
  have hne : (c :: t).takeWhile isDigitCh ≠ [] := by
    rw [List.takeWhile_cons, if_pos hc]
    simp
  rw [numLenDigits]
  split
  · rename_i r2 hr2
    refine ⟨(c :: t).takeWhile isDigitCh, '.' :: r2.takeWhile isDigitCh, ?_, hne, hmem,
      Or.inr ⟨_, rfl, fun d hd => List.mem_takeWhile_imp hd⟩⟩
    rw [show ((c :: t).takeWhile isDigitCh).length + 1 + (r2.takeWhile isDigitCh).length
        = ((c :: t).takeWhile isDigitCh).length + ((r2.takeWhile isDigitCh).length + 1)
        from by omega]
    rw [List.take_add, takeWhile_as_take, hr2, List.take_succ_cons, takeWhile_as_take]
  · refine ⟨(c :: t).takeWhile isDigitCh, [], ?_, hne, hmem, Or.inl rfl⟩
    rw [List.append_nil, takeWhile_as_take]

theorem numToken_take_shape : ∀ {l : List Char} {n : Nat}, numTokenLen l = some n →
    ∃ sgn ds tail, l.take n = sgn ++ (ds ++ tail) ∧
      (sgn = [] ∨ sgn = ['+'] ∨ sgn = ['-']) ∧ ds ≠ [] ∧
      (∀ d ∈ ds, isDigitCh d = true) ∧
      (tail = [] ∨ ∃ fs, tail = '.' :: fs ∧ ∀ d ∈ fs, isDigitCh d = true) := by
  intro l n h
  cases l with
  | nil => cases h
  | cons c rest =>
    rw [numTokenLen] at h
    by_cases hc : isDigitCh c = true
    · rw [if_pos hc] at h
      injection h with h
      subst h
      obtain ⟨ds, tail, h1, h2, h3, h4⟩ := @numLenDigits_take_shape c rest hc
      exact ⟨[], ds, tail, by rw [List.nil_append]; exact h1, Or.inl rfl, h2, h3, h4⟩
    · rw [if_neg hc] at h
      by_cases hs : ((c = '+' || c = '-') && rest.head?.any isDigitCh) = true
      · rw [if_pos hs] at h
        injection h with h
        subst h
        have hs2 : (c = '+' ∨ c = '-') ∧ rest.head?.any isDigitCh = true := by
          simpa using hs
        cases rest with
        | nil => simp at hs2
        | cons d t =>
          have hd : isDigitCh d = true := by
            have := hs2.2
            simpa using this
          obtain ⟨ds, tail, h1, h2, h3, h4⟩ := @numLenDigits_take_shape d t hd
          refine ⟨[c], ds, tail, ?_, ?_, h2, h3, h4⟩
          · rw [show 1 + numLenDigits (d :: t) = numLenDigits (d :: t) + 1 from by omega,
              List.take_succ_cons, h1]
            rfl
          · rcases hs2.1 with h | h
            · exact Or.inr (Or.inl (by rw [h]))
            · exact Or.inr (Or.inr (by rw [h]))
      · rw [if_neg hs] at h
        cases h

theorem firstDigitRun_some : ∀ {l : List Char}, l.any isDigitCh = true →
    ∃ ds, firstDigitRun l = some ds := by
  intro l h
  induction l with
  | nil => cases h
  | cons c rest ih =>
    rw [firstDigitRun]
    by_cases hc : isDigitCh c = true
    · rw [if_pos hc]
      exact ⟨_, rfl⟩
    · rw [if_neg hc]
      apply ih
      have h2 : isDigitCh c = true ∨ rest.any isDigitCh = true := by simpa using h
      rcases h2 with h | h
      · exact absurd h hc
      · exact h

theorem firstDigitRunBeforeDot_shape {sgn ds fs : List Char}
    (hsgn : sgn = [] ∨ sgn = ['+'] ∨ sgn = ['-']) (hdsne : ds ≠ [])
    (hdsd : ∀ d ∈ ds, isDigitCh d = true) :
    ∃ r, firstDigitRunBeforeDot (sgn ++ (ds ++ '.' :: fs)) = some r := by
  have main : ∃ r, firstDigitRunBeforeDot (ds ++ '.' :: fs) = some r := by
    cases ds with
    | nil => exact absurd rfl hdsne
    | cons d t =>
      have htd : ∀ e ∈ t, isDigitCh e = true := fun e he => hdsd e (by simp [he])
      have hdropt : (t ++ '.' :: fs).dropWhile isDigitCh = '.' :: fs := by
        rw [dropWhile_append_all htd, List.dropWhile_cons,
          if_neg (by rw [dot_not_digit]; simp)]
      rw [List.cons_append, firstDigitRunBeforeDot, if_pos (hdsd d (by simp))]
      rw [if_pos (by rw [hdropt]; simp)]
      exact ⟨_, rfl⟩
  rcases hsgn with h | h | h
  · rw [h, List.nil_append]
    exact main
  · rw [h]
    rw [List.cons_append, List.nil_append, firstDigitRunBeforeDot, if_neg (by decide)]
    exact main
  · rw [h]
    rw [List.cons_append, List.nil_append, firstDigitRunBeforeDot, if_neg (by decide)]
    exact main

theorem sign_digits_no_dot {sgn ds : List Char}
    (hsgn : sgn = [] ∨ sgn = ['+'] ∨ sgn = ['-'])
    (hdsd : ∀ d ∈ ds, isDigitCh d = true) :
    (sgn ++ (ds ++ [])).any (fun c => c = '.') = false := by
  rw [List.append_nil]
  rw [Bool.eq_false_iff]
  intro hcon
  rw [List.any_eq_true] at hcon
  obtain ⟨x, hx, hxd⟩ := hcon
  have hxdot : x = '.' := by simpa using hxd
  rcases List.mem_append.mp hx with h | h
  · rcases hsgn with hs | hs | hs
    · rw [hs] at h
      cases h
    · rw [hs] at h
      have hxp : x = '+' := by simpa using h
      rw [hxp] at hxdot
      exact absurd hxdot (by decide)
    · rw [hs] at h
      have hxm : x = '-' := by simpa using h
      rw [hxm] at hxdot
      exact absurd hxdot (by decide)
  · exact absurd (hxdot ▸ hdsd x h) (by decide)

theorem sign_digits_has_digit {sgn ds tail : List Char} (hdsne : ds ≠ [])
    (hdsd : ∀ d ∈ ds, isDigitCh d = true) :
    (sgn ++ (ds ++ tail)).any isDigitCh = true := by
  cases ds with
  | nil => exact absurd rfl hdsne
  | cons d t =>
    rw [List.any_eq_true]
    exact ⟨d, by simp, hdsd d (by simp)⟩

theorem readNumToken_safe {reader : Nat → List Char}
    (hr : ∀ k, ∀ c ∈ reader k, isDigitCh c = false) {rest : List Char} {n : Nat}
    (h : numTokenLen rest = some n) :
    ∃ out, readNumToken reader (rest.take n) = some out ∧
      ∀ c ∈ out, isDigitCh c = false := by
  obtain ⟨sgn, ds, tail, hm, hsgn, hdsne, hdsd, htail⟩ := numToken_take_shape h
  rcases htail with htail | ⟨fs, htail, hfs⟩
  · subst htail
    rw [hm]
    rw [readNumToken, if_neg (by rw [sign_digits_no_dot hsgn hdsd]; simp)]
    obtain ⟨ds2, hds2⟩ := firstDigitRun_some (sign_digits_has_digit hdsne hdsd)
    rw [hds2]
    refine ⟨_, rfl, ?_⟩
    intro c hc
    rcases subDigitRuns_mem _ _ c hc with hcm | ⟨_, hnd⟩
    · exact hr _ c hcm
    · exact hnd
  · subst htail
    rw [hm]
    have hdot : (sgn ++ (ds ++ '.' :: fs)).any (fun c => c = '.') = true := by
      rw [List.any_eq_true]
      exact ⟨'.', by simp, by simp⟩
    rw [readNumToken, if_pos hdot]
    obtain ⟨ds2, hds2⟩ := firstDigitRunBeforeDot_shape hsgn hdsne hdsd
    rw [hds2]
    refine ⟨_, rfl, ?_⟩
    intro c hc
    exact digitChain_digit_free _ c hc

theorem numClean_append : ∀ {p q cont : List Char}, numClean p (q ++ cont) →
    numClean q cont → numClean (p ++ q) cont := by
  intro p
  induction p with
  | nil =>
    intro q cont _ h2
    exact h2
  | cons a t ih =>
    intro q cont h1 h2
    refine ⟨?_, ih h1.2 h2⟩
    show numTokenLen (a :: (t ++ q ++ cont)) = none
    rw [List.append_assoc]
    exact h1.1

theorem readNumberLoop_safe (reader : Nat → List Char)
    (hr : ∀ k, ∀ c ∈ reader k, isDigitCh c = false) :
    ∀ (n : Nat) (l : List Char), numCount l = n →
    ∃ out, readNumberLoop reader n l = some out ∧ numCount out = 0 := by
  intro n
  induction n with
  | zero =>
    intro l hl
    exact ⟨l, rfl, hl⟩
  | succ k ih =>
    intro l hl
    have hlen : (finditerNum 0 l).length = k + 1 := by rw [numCount_eq]; exact hl
    cases hf : finditerNum 0 l with
    | nil =>
      rw [hf] at hlen
      cases hlen
    | cons hd ms =>
      obtain ⟨⟨j, kk⟩, m⟩ := hd
      obtain ⟨pre, rest, nn, hlp, hn, hm, hj, hkk, hclean⟩ := finditerNum_decomp hf
      obtain ⟨numNew, hnum, hnumfree⟩ := readNumToken_safe hr hn
      rw [← hm] at hnum
      have hstep : readNumberLoop reader (k + 1) l =
          readNumberLoop reader k (replaceSubstring l numNew (j, kk)) := by
        rw [readNumberLoop, hf]
        show (match readNumToken reader m with
          | none => none
          | some nw => readNumberLoop reader k (replaceSubstring l nw (j, kk))) =
          readNumberLoop reader k (replaceSubstring l numNew (j, kk))
        rw [hnum]
      have htake : l.take j = pre := by
        rw [hlp, show j = pre.length from by omega]
        exact List.take_left pre rest
      have hdrop : l.drop kk = rest.drop nn := by
        rw [hlp, show kk = pre.length + nn from by omega, ← List.drop_drop,
          List.drop_left]
      have hrepl : replaceSubstring l numNew (j, kk) = pre ++ (numNew ++ rest.drop nn) := by
        rw [replaceSubstring]
        rw [show (j, kk).1 = j from rfl, show (j, kk).2 = kk from rfl, htake, hdrop,
          List.append_assoc]
      have hcont : ∀ d, (rest.drop nn).head? = some d → isDigitCh d = false :=
        fun d hd => numTokenLen_drop_head hn hd
      have hheadfree : ∀ d, (numNew ++ rest.drop nn).head? = some d → isDigitCh d = false := by
        intro d hd
        cases hnn : numNew with
        | nil =>
          rw [hnn] at hd
          exact hcont d (by simpa using hd)
        | cons x xs =>
          rw [hnn] at hd
          simp only [List.cons_append, List.head?_cons] at hd
          injection hd with hd
          rw [← hd]
          exact hnumfree x (by rw [hnn]; simp)
      have hc1 : numClean pre (numNew ++ rest.drop nn) := numClean_retarget hclean hheadfree
      have hc2 : numClean numNew (rest.drop nn) := numClean_of_digit_free hnumfree hcont
      have hc3 : numClean (pre ++ numNew) (rest.drop nn) := numClean_append hc1 hc2
      have hcount : numCount (replaceSubstring l numNew (j, kk)) = k := by
        rw [hrepl, ← List.append_assoc, numClean_append_count hc3]
        have h5 : numCount l = numCount rest := by
          rw [hlp]
          exact numClean_append_count hclean
        have h6 := numCount_cons_some hn
        omega
      obtain ⟨out, ho, hz⟩ := ih (replaceSubstring l numNew (j, kk)) hcount
      exact ⟨out, by rw [hstep]; exact ho, hz⟩

/-- C10: with an external digit-to-word reader whose outputs contain no
digit characters, `readNumber` never hits an out-of-bounds access at
`numidx[0]`/`numlist[0]`: every one of the fixed number of loop iterations
(the match count of the initial scan) re-finds a nonempty match list and
removes exactly one numeric token, so the run completes normally (`some`)
and its output contains no numeric-token match at all. -/
theorem readNumber_safe (reader : Nat → List Char)
    (hr : ∀ k, ∀ c ∈ reader k, isDigitCh c = false) (line : List Char) :
    ∃ out, readNumber reader line = some out ∧ finditerNum 0 out = [] := by
  have hnc := numCount_eq 0 line
  by_cases h0 : 0 < (finditerNum 0 line).length
  · obtain ⟨out, ho, hz⟩ :=
      readNumberLoop_safe reader hr ((finditerNum 0 line).length) line hnc.symm
    refine ⟨out, ?_, ?_⟩
    · simp only [readNumber]
      rw [if_pos h0]
      exact ho
    · have h2 := numCount_eq 0 out
      rw [hz] at h2
      exact List.length_eq_zero.mp h2
  · refine ⟨line, ?_, ?_⟩
    · simp only [readNumber]
      rw [if_neg h0]
    · cases hfe : finditerNum 0 line with
      | nil => rfl
      | cons a as =>
        rw [hfe] at h0
        simp at h0

/-- C10 witness: the theorem at a line holding an integer token and a
signed floating token, with a reader that answers 수. -/
theorem readNumber_safe_witness :
    ∃ out, readNumber (fun _ => "수".toList) ("가1나 -2.5다".toList) = some out ∧
      finditerNum 0 out = [] :=
  readNumber_safe (fun _ => "수".toList)
    (fun _ => show ∀ c ∈ "수".toList, isDigitCh c = false from by decide)
    ("가1나 -2.5다".toList)

theorem removeNonHangul_chars (l : List Char) :
    ∀ c ∈ removeNonHangul l, isHang c = true ∨ isSpaceCh c = true := by
  induction l with
  | nil =>
    intro c hc
    cases hc
  | cons a rest ih =>
    intro c hc
    rw [removeNonHangul] at hc
    by_cases ha : (isHang a || isSpaceCh a) = true
    · rw [if_pos ha] at hc
      rcases List.mem_cons.mp hc with h | h
      · rw [h]
        exact Bool.or_eq_true_iff.mp ha
      · exact ih c h
    · rw [if_neg ha] at hc
      exact ih c hc

theorem normalizeLine_chars {reader : Nat → List Char} {translate loan : List Char → List Char}
    {line out : List Char}
    (h : normalizeLine reader translate loan line = some out) :
    ∀ c ∈ out, isHang c = true ∨ isSpaceCh c = true := by
  simp only [normalizeLine, Option.pure_def, Option.bind_eq_bind, Option.bind_eq_some,
    Option.some.injEq] at h
  obtain ⟨l2, h2, l5, h5, l6, h6, hout⟩ := h
  rw [← hout]
  exact removeNonHangul_chars l6

/-- C1: for every input corpus (and any external digit reader, logograph
translator and loanword reader), every line of the list returned by
`normalize` consists solely of Korean syllable block characters (가-힣)
and whitespace characters: the final stripping stage keeps exactly those
characters, so no digit, Latin letter, logograph, jamo or symbol
character survives. -/
theorem normalize_chars (reader : Nat → List Char) (translate loan : List Char → List Char) :
    ∀ (corpus body : List (List Char)),
      normalize reader translate loan corpus = some body →
      ∀ l ∈ body, ∀ c ∈ l, isHang c = true ∨ isSpaceCh c = true := by
  intro corpus
  induction corpus with
  | nil =>
    intro body h
    rw [normalize] at h
    injection h with h
    rw [← h]
    intro l hl
    cases hl
  | cons line rest ih =>
    intro body h
    simp only [normalize, Option.pure_def, Option.bind_eq_bind, Option.bind_eq_some,
      Option.some.injEq] at h
    obtain ⟨l, hline, body2, hbody2, hbody⟩ := h
    intro x hx
    rw [← hbody] at hx
    by_cases hk : keepLine l = true
    · rw [if_pos hk] at hx
      rcases List.mem_cons.mp hx with hx | hx
      · rw [hx]
        exact normalizeLine_chars hline
      · exact ih body2 hbody2 x hx
    · rw [if_neg hk] at hx
      exact ih body2 hbody2 x hx

/-- The full pipeline evaluated on the one-line corpus 안1A with trivial
externals: the digit is rewritten away by the number pass and the glued
Latin capital is deleted, leaving the single line 안. -/
theorem normalize_eval_example :
    normalize (fun _ => []) id id [['안', '1', 'A']] = some [['안']] := by
  have e1 : subLeadingNumber ['안', '1', 'A'] = ['안', '1', 'A'] := by
    simp [subLeadingNumber, isSpaceCh, isOpenBr, isDigitCh]
  have e2 : readNumber (fun _ => []) ['안', '1', 'A'] = some ['안', 'A'] := by
    simp [readNumber, finditerNum, numTokenLen, numLenDigits, isDigitCh, readNumberLoop,
      readNumToken, firstDigitRun, subDigitRuns, digitsToNat, replaceSubstring]
  have e3 : subExamples true ['안', 'A'] = ['안', 'A'] := by
    rw [subExamples_start_none (by decide) (by decide) (by decide),
      subExamples_cons_plain (by decide) (by decide), subExamples_nil]
  have e4 : subBullet ['안', 'A'] = ['안', 'A'] := by
    simp [subBullet, isSpaceCh, isOpenBr, isJamoOrHang, isCloseBr81, isHang]
  have e5 : subParens ['안', 'A'] = ['안', 'A'] := by
    simp [subParens, toCloseParen]
  have e6 : subWebAddr ['안', 'A'] = ['안', 'A'] := by
    simp [subWebAddr, schemeMatch, schemeLits, dropLit, urlLabels, urlTail24, isLowAl,
      isDomCh, isUrlTail, List.findSome?]
  have e7 : subDashes ['안', 'A'] = ['안', 'A'] := by
    simp [subDashes]
  have e8 : subQuotes ['안', 'A'] = ['안', 'A'] := by
    simp [subQuotes]
  have e9 : subReporter ['안', 'A'] = ['안', 'A'] := by
    simp [subReporter, findReporter, repCand, lazyUpTo]
  have e10 : subTitleRef ['안', 'A'] = ['안', 'A'] := by
    simp [subTitleRef, lazyUpTo]
  have e11 : subBrackets ['안', 'A'] = ['안', 'A'] := by
    simp [subBrackets, isCloseBr81, isHang]
  have e12 : subEmail ['안', 'A'] = ['안', 'A'] := by
    rw [subEmail_cons_none (by decide), subEmail_cons_none (by decide), subEmail_nil]
  have e13 : subSharp ['안', 'A'] = ['안', 'A'] := by
    simp [subSharp]
  have e14 : subGluedLatin none ['안', 'A'] = ['안'] := by
    simp [subGluedLatin, glueMunch, glueLast, isLatin, isUpper, isLower, isHang]
  have e15 : subColons ['안'] = ['안'] := by
    simp [subColons]
  have e16 : subMiddot ['안'] = ['안'] := by
    simp [subMiddot]
  have e17 : subTilde none ['안'] = ['안'] := by
    simp [subTilde]
  have e18 : subArrow ['안'] = ['안'] := by
    simp [subArrow]
  have e19 : readHangulLetter ['안'] = ['안'] := by
    simp [readHangulLetter, jamoTable, subCharStr]
  have e20 : readHanja id ['안'] = ['안'] := by
    simp [readHanja, searchClassPlus, searchHangHanja, subHanjaRuns, isHanja, isHang]
  have e21 : readABC ['안'] = some ['안'] := by
    simp [readABC, finditerABC, abcCond, isUpper, isLower]
  have e22 : readAlphabet id ['안'] = some ['안'] := by
    simp [readAlphabet, finditerAlpha, isLatin, isUpper, isLower]
  have e23 : removeNonHangul ['안'] = ['안'] := by
    simp [removeNonHangul, isHang, isSpaceCh]
  have hnl : normalizeLine (fun _ => []) id id ['안', '1', 'A'] = some ['안'] := by
    simp only [normalizeLine, Option.pure_def, Option.bind_eq_bind, e1, e2,
      Option.some_bind, e3, e4, e5, e6, e7, e8, e9, e10, e11, e12, e13, e14, e15, e16,
      e17, e18, e19, e20, e21, e22, e23]
  show normalize (fun _ => []) id id [['안', '1', 'A']] = some [['안']]
  simp only [normalize, Option.pure_def, Option.bind_eq_bind, hnl, Option.some_bind]
  rw [if_pos (by decide : keepLine ['안'] = true)]

/-- C1 witness: the theorem at the one-line corpus 안1A with trivial
externals; the surviving line 안 is Korean-only. -/
theorem normalize_chars_witness :
    normalize (fun _ => []) id id [['안', '1', 'A']] = some [['안']] ∧
    ∀ l ∈ [['안']], ∀ c ∈ l, isHang c = true ∨ isSpaceCh c = true := by
  refine ⟨normalize_eval_example, ?_⟩
  intro l hl
  have hl2 : l = ['안'] := by simpa using hl
  rw [hl2]
  exact normalize_chars (fun _ => []) id id [['안', '1', 'A']] [['안']]
    normalize_eval_example ['안'] (by simp)

theorem keepLine_spec {l : List Char} (h : keepLine l = true) :
    l ≠ [] ∧ ∃ c ∈ l, isSpaceCh c = false := by
  cases l with
  | nil => exact absurd h (by decide)
  | cons a t =>
    refine ⟨by simp, ?_⟩
    rw [keepLine, strIsSpace] at h
    by_cases hall : (a :: t).all isSpaceCh = true
    · rw [hall] at h
      simp at h
    · simp only [List.all_eq_true] at hall
      push_neg at hall
      obtain ⟨c, hc, hcs⟩ := hall
      exact ⟨c, hc, by simpa using hcs⟩

theorem bySentence_keep {corpus : List (List Char)} {l : List Char}
    (h : l ∈ bySentence corpus) : keepLine l = true := by
  rw [bySentence] at h
  rw [List.mem_flatMap] at h
  obtain ⟨line, hline, hl⟩ := h
  rw [bySentenceLine] at hl
  exact (List.mem_filter.mp hl).2

theorem normalize_keep {reader : Nat → List Char} {translate loan : List Char → List Char} :
    ∀ {corpus body : List (List Char)},
    normalize reader translate loan corpus = some body → ∀ l ∈ body, keepLine l = true := by
  intro corpus
  induction corpus with
  | nil =>
    intro body h l hl
    rw [normalize] at h
    injection h with h
    rw [← h] at hl
    cases hl
  | cons line rest ih =>
    intro body h l hl
    simp only [normalize, Option.pure_def, Option.bind_eq_bind, Option.bind_eq_some,
      Option.some.injEq] at h
    obtain ⟨x, hx, body2, hbody2, hbody⟩ := h
    rw [← hbody] at hl
    by_cases hk : keepLine x = true
    · rw [if_pos hk] at hl
      rcases List.mem_cons.mp hl with h1 | h1
      · rw [h1]
        exact hk
      · exact ih hbody2 l h1
    · rw [if_neg hk] at hl
      exact ih hbody2 l hl

/-- C8: neither the segmenter nor the normalizer ever emits an empty or
whitespace-only output line: both run every candidate line through the
whitespace and emptiness guards before appending it, so every element of
either returned list is nonempty and contains a non-whitespace character. -/
theorem no_blank_output :
    (∀ corpus : List (List Char), ∀ l ∈ bySentence corpus,
      l ≠ [] ∧ ∃ c ∈ l, isSpaceCh c = false) ∧
    (∀ (reader : Nat → List Char) (translate loan : List Char → List Char)
      (corpus body : List (List Char)),
      normalize reader translate loan corpus = some body →
      ∀ l ∈ body, l ≠ [] ∧ ∃ c ∈ l, isSpaceCh c = false) :=
  ⟨fun _ l hl => keepLine_spec (bySentence_keep hl),
   fun _ _ _ _ _ h l hl => keepLine_spec (normalize_keep h l hl)⟩

/-- C8 witness: the theorem at a concrete segmenter input and at the
evaluated normalizer run on the corpus 안1A. -/
theorem no_blank_output_witness :
    (∀ l ∈ bySentence [("안녕. 잘가.".toList)], l ≠ [] ∧ ∃ c ∈ l, isSpaceCh c = false) ∧
    (∀ l ∈ [['안']], l ≠ [] ∧ ∃ c ∈ l, isSpaceCh c = false) :=
  ⟨fun l hl => no_blank_output.1 [("안녕. 잘가.".toList)] l hl,
   fun l hl => no_blank_output.2 (fun _ => []) id id [['안', '1', 'A']] [['안']]
     normalize_eval_example l hl⟩

/-! ## C2: building blocks for segmenter idempotence -/

def pairRun (p : Char) : Char → Char → Bool := fun a b => a = p && b = p

def pairPunctSpace : Char → Char → Bool := fun a b => isPunctMark a && (b = ' ' || b = ',')

def tripleHPH : Char → Char → Char → Bool := fun a b c =>
  isHang a && isPunctMark b && isHang c

/-- A segment on which a second run of the `bySentence` rewrites can do
nothing: no ellipsis, no capital, no doubled sentence punctuation, no
space or comma after sentence punctuation, no punctuation between two
Korean syllables, no line break, and it passes the keep guard. -/
def settled (s : List Char) : Prop :=
  charFree (fun c => c = '…') s ∧ charFree isUpper s ∧
  noPairB (pairRun '.') s = true ∧ noPairB (pairRun '?') s = true ∧
  noPairB (pairRun '!') s = true ∧ noPairB pairPunctSpace s = true ∧
  noTripleB tripleHPH s = true ∧ charFree isLineBrk s ∧ keepLine s = true

theorem band_split {a b : Bool} (h : (a && b) = true) : a = true ∧ b = true := by
  cases a <;> cases b <;> simp_all

theorem noPairB_tail {f : Char → Char → Bool} {a : Char} {t : List Char}
    (h : noPairB f (a :: t) = true) : noPairB f t = true := by
  cases t with
  | nil => rfl
  | cons b r =>
    rw [noPairB] at h
    exact (band_split h).2

theorem noPairB_suffix {f : Char → Char → Bool} : ∀ {x y : List Char},
    noPairB f (x ++ y) = true → noPairB f y = true := by
  intro x
  induction x with
  | nil => intro y h; exact h
  | cons a t ih =>
    intro y h
    exact ih (noPairB_tail h)

theorem noPairB_prefix {f : Char → Char → Bool} : ∀ {y z : List Char},
    noPairB f (y ++ z) = true → noPairB f y = true := by
  intro y
  induction y with
  | nil => intro z _; rfl
  | cons a t ih =>
    intro z h
    cases t with
    | nil => rfl
    | cons b r =>
      rw [List.cons_append, List.cons_append, noPairB] at h
      have h2 := band_split h
      rw [noPairB, h2.1]
      have h3 := @ih z (by rw [List.cons_append]; exact h2.2)
      rw [h3]
      rfl

theorem noPairB_infix {f : Char → Char → Bool} {y l : List Char}
    (hinf : y <:+: l) (h : noPairB f l = true) : noPairB f y = true := by
  obtain ⟨pre, suf, hps⟩ := hinf
  rw [← hps] at h
  exact noPairB_prefix (noPairB_suffix (by rw [← List.append_assoc]; exact h))

theorem noTripleB_tail {g : Char → Char → Char → Bool} {a : Char} {t : List Char}
    (h : noTripleB g (a :: t) = true) : noTripleB g t = true := by
  cases t with
  | nil => rfl
  | cons b r =>
    cases r with
    | nil => rfl
    | cons c r2 =>
      rw [noTripleB] at h
      exact (band_split h).2

theorem noTripleB_suffix {g : Char → Char → Char → Bool} : ∀ {x y : List Char},
    noTripleB g (x ++ y) = true → noTripleB g y = true := by
  intro x
  induction x with
  | nil => intro y h; exact h
  | cons a t ih =>
    intro y h
    exact ih (noTripleB_tail h)

theorem noTripleB_prefix {g : Char → Char → Char → Bool} : ∀ {y z : List Char},
    noTripleB g (y ++ z) = true → noTripleB g y = true := by
  intro y
  induction y with
  | nil => intro z _; rfl
  | cons a t ih =>
    intro z h
    cases t with
    | nil => rfl
    | cons b r =>
      cases r with
      | nil => rfl
      | cons c r2 =>
        rw [List.cons_append, List.cons_append, List.cons_append, noTripleB] at h
        have h2 := band_split h
        rw [noTripleB, h2.1]
        have h3 := @ih z (by
          rw [List.cons_append, List.cons_append]
          exact h2.2)
        rw [h3]
        rfl

theorem noTripleB_infix {g : Char → Char → Char → Bool} {y l : List Char}
    (hinf : y <:+: l) (h : noTripleB g l = true) : noTripleB g y = true := by
  obtain ⟨pre, suf, hps⟩ := hinf
  rw [← hps] at h
  exact noTripleB_prefix (noTripleB_suffix (by rw [← List.append_assoc]; exact h))

theorem charFree_subset {S : Char → Bool} {y l : List Char} (hsub : y ⊆ l)
    (h : charFree S l) : charFree S y :=
  fun c hc => h c (hsub hc)

theorem subEllipsis_chars {l : List Char} {c : Char} (h : c ∈ subEllipsis l) :
    c ∈ l ∨ c = '.' := by
  rw [subEllipsis, List.mem_map] at h
  obtain ⟨x, hx, hxc⟩ := h
  by_cases hxe : x = '…'
  · rw [if_pos hxe] at hxc
    exact Or.inr hxc.symm
  · rw [if_neg hxe] at hxc
    exact Or.inl (hxc ▸ hx)

theorem subInitialDot1_chars : ∀ {p2 p1 : Option Char} {l : List Char} {c : Char},
    c ∈ subInitialDot1 p2 p1 l → c ∈ l := by
  intro p2 p1 l
  induction l generalizing p2 p1 with
  | nil =>
    intro c hc
    rw [subInitialDot1] at hc
    cases hc
  | cons a rest ih =>
    intro c hc
    rw [subInitialDot1] at hc
    by_cases hcond : (a = '.' && p2 = some '.' && p1.any isUpper) = true
    · rw [if_pos hcond] at hc
      exact List.mem_cons_of_mem a (ih hc)
    · rw [if_neg hcond] at hc
      rcases List.mem_cons.mp hc with h | h
      · rw [h]
        exact List.mem_cons_self a rest
      · exact List.mem_cons_of_mem a (ih h)

theorem subInitialDot2_chars : ∀ {p1 : Option Char} {l : List Char} {c : Char},
    c ∈ subInitialDot2 p1 l → c ∈ l := by
  intro p1 l
  induction l generalizing p1 with
  | nil =>
    intro c hc
    rw [subInitialDot2] at hc
    cases hc
  | cons a rest ih =>
    intro c hc
    rw [subInitialDot2] at hc
    by_cases hcond : (a = '.' && p1.any isUpper && rest.head?.any isUpper) = true
    · rw [if_pos hcond] at hc
      exact List.mem_cons_of_mem a (ih hc)
    · rw [if_neg hcond] at hc
      rcases List.mem_cons.mp hc with h | h
      · rw [h]
        exact List.mem_cons_self a rest
      · exact List.mem_cons_of_mem a (ih h)

theorem collapseRun_chars {p : Char} : ∀ {l : List Char} {c : Char},
    c ∈ collapseRun p l → c ∈ l := by
  intro l
  induction l with
  | nil =>
    intro c hc
    rw [collapseRun] at hc
    cases hc
  | cons a rest ih =>
    intro c hc
    rw [collapseRun] at hc
    by_cases hcond : (a = p && rest.head? = some p) = true
    · rw [if_pos hcond] at hc
      exact List.mem_cons_of_mem a (ih hc)
    · rw [if_neg hcond] at hc
      rcases List.mem_cons.mp hc with h | h
      · rw [h]
        exact List.mem_cons_self a rest
      · exact List.mem_cons_of_mem a (ih h)

theorem subPunctSpace_chars : ∀ {p1 : Option Char} {l : List Char} {c : Char},
    c ∈ subPunctSpace p1 l → c ∈ l ∨ c = '\n' := by
  intro p1 l
  induction l generalizing p1 with
  | nil =>
    intro c hc
    rw [subPunctSpace] at hc
    cases hc
  | cons a rest ih =>
    intro c hc
    rw [subPunctSpace] at hc
    rcases List.mem_cons.mp hc with h | h
    · by_cases hcond : ((a = ' ' || a = ',') && p1.any isPunctMark) = true
      · rw [if_pos hcond] at h
        exact Or.inr h
      · rw [if_neg hcond] at h
        rw [h]
        exact Or.inl (List.mem_cons_self a rest)
    · rcases ih h with h2 | h2
      · exact Or.inl (List.mem_cons_of_mem a h2)
      · exact Or.inr h2

theorem subHangPunctHang_chars : ∀ {p1 : Option Char} {l : List Char} {c : Char},
    c ∈ subHangPunctHang p1 l → c ∈ l ∨ c = '.' ∨ c = '\n' := by
  intro p1 l
  induction l generalizing p1 with
  | nil =>
    intro c hc
    rw [subHangPunctHang] at hc
    cases hc
  | cons a rest ih =>
    intro c hc
    rw [subHangPunctHang] at hc
    by_cases hcond : (isPunctMark a && p1.any isHang && rest.head?.any isHang) = true
    · rw [if_pos hcond] at hc
      rcases List.mem_cons.mp hc with h | h
      · exact Or.inr (Or.inl h)
      · rcases List.mem_cons.mp h with h2 | h2
        · exact Or.inr (Or.inr h2)
        · rcases ih h2 with h3 | h3
          · exact Or.inl (List.mem_cons_of_mem a h3)
          · exact Or.inr h3
    · rw [if_neg hcond] at hc
      rcases List.mem_cons.mp hc with h | h
      · rw [h]
        exact Or.inl (List.mem_cons_self a rest)
      · rcases ih h with h2 | h2
        · exact Or.inl (List.mem_cons_of_mem a h2)
        · exact Or.inr h2

theorem collapseRun_head (p : Char) : ∀ (l : List Char),
    (collapseRun p l).head? = l.head? := by
  intro l
  induction l with
  | nil => rfl
  | cons a rest ih =>
    rw [collapseRun]
    by_cases hcond : (a = p && rest.head? = some p) = true
    · rw [if_pos hcond, ih]
      have h2 := band_split hcond
      have ha : a = p := by simpa using h2.1
      have hr : rest.head? = some p := by simpa using h2.2
      rw [hr, ha]
      rfl
    · rw [if_neg hcond]
      rfl

theorem subPunctSpace_head (p1 : Option Char) (a : Char) (rest : List Char) :
    (subPunctSpace p1 (a :: rest)).head? = some '\n' ∨
    (subPunctSpace p1 (a :: rest)).head? = some a := by
  rw [subPunctSpace]
  by_cases hcond : ((a = ' ' || a = ',') && p1.any isPunctMark) = true
  · rw [if_pos hcond]
    exact Or.inl rfl
  · rw [if_neg hcond]
    exact Or.inr rfl

theorem subHangPunctHang_head (p1 : Option Char) (a : Char) (rest : List Char) :
    (subHangPunctHang p1 (a :: rest)).head? = some '.' ∨
    (subHangPunctHang p1 (a :: rest)).head? = some a := by
  rw [subHangPunctHang]
  by_cases hcond : (isPunctMark a && p1.any isHang && rest.head?.any isHang) = true
  · rw [if_pos hcond]
    exact Or.inl rfl
  · rw [if_neg hcond]
    exact Or.inr rfl

theorem hang_not_punct {c : Char} (h : isHang c = true) : isPunctMark c = false := by
  rw [isHang] at h
  have hb : 0xAC00 ≤ c.toNat := by simpa using (band_split h).1
  have hd : ¬ c = '.' := fun e => by rw [e] at hb; exact absurd hb (by decide)
  have hq : ¬ c = '?' := fun e => by rw [e] at hb; exact absurd hb (by decide)
  have he : ¬ c = '!' := fun e => by rw [e] at hb; exact absurd hb (by decide)
  rw [isPunctMark]
  simp [hd, hq, he]

theorem noPairB_cons {f : Char → Char → Bool} {x : Char} {t : List Char}
    (h1 : ∀ b, t.head? = some b → f x b = false) (h2 : noPairB f t = true) :
    noPairB f (x :: t) = true := by
  cases t with
  | nil => rfl
  | cons b r =>
    rw [noPairB, h2, h1 b rfl]
    rfl

theorem noTripleB_cons {g : Char → Char → Char → Bool} {x : Char} {t : List Char}
    (h1 : ∀ b c r, t = b :: c :: r → g x b c = false) (h2 : noTripleB g t = true) :
    noTripleB g (x :: t) = true := by
  cases t with
  | nil => rfl
  | cons b r =>
    cases r with
    | nil => rfl
    | cons c r2 =>
      rw [noTripleB, h2, h1 b c r2 rfl]
      rfl

theorem collapseRun_noPair_self (p : Char) : ∀ (l : List Char),
    noPairB (pairRun p) (collapseRun p l) = true := by
  intro l
  induction l with
  | nil => rfl
  | cons c rest ih =>
    rw [collapseRun]
    by_cases hcond : (c = p && rest.head? = some p) = true
    · rw [if_pos hcond]
      exact ih
    · rw [if_neg hcond]
      refine noPairB_cons ?_ ih
      intro b hb
      rw [collapseRun_head] at hb
      by_cases hcp : c = p
      · have hbp : ¬ b = p := by
          intro hbp
          apply hcond
          rw [hbp] at hb
          simp [hcp, hb]
        simp [pairRun, hbp]
      · simp [pairRun, hcp]

theorem collapseRun_noPair {f : Char → Char → Bool} (p : Char) : ∀ {l : List Char},
    noPairB f l = true → noPairB f (collapseRun p l) = true := by
  intro l
  induction l with
  | nil => intro _; rfl
  | cons c rest ih =>
    intro h
    rw [collapseRun]
    by_cases hcond : (c = p && rest.head? = some p) = true
    · rw [if_pos hcond]
      exact ih (noPairB_tail h)
    · rw [if_neg hcond]
      refine noPairB_cons ?_ (ih (noPairB_tail h))
      intro b hb
      rw [collapseRun_head] at hb
      cases rest with
      | nil => cases hb
      | cons d r =>
        injection hb with hb
        rw [← hb]
        rw [noPairB] at h
        have h2 := (band_split h).1
        cases hf : f c d
        · rfl
        · rw [hf] at h2
          cases h2

theorem subPunctSpace_estab : ∀ (p1 : Option Char) (l : List Char) (x : Char),
    (x = '\n' ∨ p1 = some x) →
    noPairB pairPunctSpace (x :: subPunctSpace p1 l) = true := by
  intro p1 l
  induction l generalizing p1 with
  | nil =>
    intro x _
    rw [subPunctSpace]
    rfl
  | cons c rest ih =>
    intro x hx
    rw [subPunctSpace]
    by_cases hcond : ((c = ' ' || c = ',') && p1.any isPunctMark) = true
    · rw [if_pos hcond]
      refine noPairB_cons ?_ (ih (some c) '\n' (Or.inl rfl))
      intro b hb
      injection hb with hb
      rw [← hb, pairPunctSpace]
      simp
    · rw [if_neg hcond]
      refine noPairB_cons ?_ (ih (some c) c (Or.inr rfl))
      intro b hb
      injection hb with hb
      rw [← hb]
      rcases hx with hx | hx
      · rw [hx, pairPunctSpace]
        simp [isPunctMark]
      · cases hp : isPunctMark x
        · simp [pairPunctSpace, hp]
        · have hcs : (c = ' ' || c = ',') = false := by
            cases hcs2 : (c = ' ' || c = ',')
            · rfl
            · exact absurd (by rw [hcs2, hx]; simpa using hp) hcond
          simp [pairPunctSpace, hcs]

theorem subPunctSpace_noPair {f : Char → Char → Bool}
    (hn1 : ∀ y, f '\n' y = false) (hn2 : ∀ y, f y '\n' = false) :
    ∀ (p1 : Option Char) (l : List Char) (x : Char), (x = '\n' ∨ p1 = some x) →
    noPairB f (withPrev p1 l) = true →
    noPairB f (x :: subPunctSpace p1 l) = true := by
  intro p1 l
  induction l generalizing p1 with
  | nil =>
    intro x _ _
    rw [subPunctSpace]
    rfl
  | cons c rest ih =>
    intro x hx h
    have htail : noPairB f (c :: rest) = true := by
      cases p1 with
      | none => exact h
      | some a => exact noPairB_tail (show noPairB f (a :: c :: rest) = true from h)
    rw [subPunctSpace]
    by_cases hcond : ((c = ' ' || c = ',') && p1.any isPunctMark) = true
    · rw [if_pos hcond]
      refine noPairB_cons ?_ (ih (some c) '\n' (Or.inl rfl) htail)
      intro b hb
      injection hb with hb
      rw [← hb]
      exact hn2 x
    · rw [if_neg hcond]
      refine noPairB_cons ?_ (ih (some c) c (Or.inr rfl) htail)
      intro b hb
      injection hb with hb
      rw [← hb]
      rcases hx with hx | hx
      · rw [hx]
        exact hn1 c
      · rw [hx] at h
        rw [withPrev, noPairB] at h
        have h2 := (band_split h).1
        cases hf : f x c
        · rfl
        · rw [hf] at h2
          cases h2

theorem subHangPunctHang_estab : ∀ (p1 : Option Char) (l : List Char) (x : Char),
    (x = '\n' ∨ p1 = some x) →
    noTripleB tripleHPH (x :: subHangPunctHang p1 l) = true := by
  intro p1 l
  induction l generalizing p1 with
  | nil =>
    intro x _
    rw [subHangPunctHang]
    rfl
  | cons c rest ih =>
    intro x hx
    rw [subHangPunctHang]
    by_cases hcond : (isPunctMark c && p1.any isHang && rest.head?.any isHang) = true
    · rw [if_pos hcond]
      have hrec := ih (some c) '\n' (Or.inl rfl)
      have h2 : noTripleB tripleHPH
          ('.' :: '\n' :: subHangPunctHang (some c) rest) = true := by
        refine noTripleB_cons ?_ hrec
        intro b cc r hbc
        injection hbc with hb hcc2
        rw [← hb]
        simp [tripleHPH, isHang]
      refine noTripleB_cons ?_ h2
      intro b cc r hbc
      injection hbc with hb hrest2
      injection hrest2 with hcc2 hr2
      rw [← hb, ← hcc2]
      simp [tripleHPH, isHang]
    · rw [if_neg hcond]
      refine noTripleB_cons ?_ (ih (some c) c (Or.inr rfl))
      intro b cc r hbc
      injection hbc with hb ht
      rw [← hb]
      cases rest with
      | nil =>
        rw [subHangPunctHang] at ht
        cases ht
      | cons d r2 =>
        rcases subHangPunctHang_head (some c) d r2 with hh | hh
        · have hsome : some cc = some '.' := by rw [← hh, ht]; rfl
          injection hsome with hcc
          rw [hcc]
          simp [tripleHPH, isHang]
        · have hsome : some cc = some d := by rw [← hh, ht]; rfl
          injection hsome with hcc
          rw [hcc]
          rcases hx with hx2 | hx2
          · rw [hx2]
            simp [tripleHPH, isHang]
          · cases htrip : tripleHPH x c d
            · rfl
            · exfalso
              apply hcond
              simp only [tripleHPH] at htrip
              have h3 := band_split htrip
              have h4 := band_split h3.1
              rw [hx2]
              simp [h4.1, h4.2, h3.2]

theorem subHangPunctHang_noPair {f : Char → Char → Bool}
    (hn1 : ∀ y, f '\n' y = false) (hn2 : ∀ y, f y '\n' = false)
    (hhg : ∀ y, isHang y = true → f y '.' = false) :
    ∀ (p1 : Option Char) (l : List Char) (x : Char), (x = '\n' ∨ p1 = some x) →
    noPairB f (withPrev p1 l) = true →
    noPairB f (x :: subHangPunctHang p1 l) = true := by
  intro p1 l
  induction l generalizing p1 with
  | nil =>
    intro x _ _
    rw [subHangPunctHang]
    rfl
  | cons c rest ih =>
    intro x hx h
    have htail : noPairB f (c :: rest) = true := by
      cases p1 with
      | none => exact h
      | some a => exact noPairB_tail (show noPairB f (a :: c :: rest) = true from h)
    rw [subHangPunctHang]
    by_cases hcond : (isPunctMark c && p1.any isHang && rest.head?.any isHang) = true
    · rw [if_pos hcond]
      have h2 : noPairB f ('\n' :: subHangPunctHang (some c) rest) = true :=
        ih (some c) '\n' (Or.inl rfl) htail
      have h3 : noPairB f ('.' :: '\n' :: subHangPunctHang (some c) rest) = true := by
        refine noPairB_cons ?_ h2
        intro b hb
        injection hb with hb
        rw [← hb]
        exact hn2 '.'
      refine noPairB_cons ?_ h3
      intro b hb
      injection hb with hb
      rw [← hb]
      rcases hx with hx2 | hx2
      · rw [hx2]
        exact hn1 '.'
      · have h4 := band_split hcond
        have h5 := band_split h4.1
        have hxh : isHang x = true := by
          rw [hx2] at h5
          simpa using h5.2
        exact hhg x hxh
    · rw [if_neg hcond]
      refine noPairB_cons ?_ (ih (some c) c (Or.inr rfl) htail)
      intro b hb
      injection hb with hb
      rw [← hb]
      rcases hx with hx2 | hx2
      · rw [hx2]
        exact hn1 c
      · rw [hx2, withPrev, noPairB] at h
        have h2 := (band_split h).1
        cases hf : f x c
        · rfl
        · rw [hf] at h2
          cases h2

theorem subEllipsis_id {l : List Char} (h : charFree (fun c => c = '…') l) :
    subEllipsis l = l := by
  induction l with
  | nil => rfl
  | cons c rest ih =>
    have hc : ¬ c = '…' := by simpa using h c (List.mem_cons_self c rest)
    have ht : charFree (fun c => c = '…') rest :=
      fun d hd => h d (List.mem_cons_of_mem c hd)
    rw [subEllipsis, List.map_cons, if_neg hc]
    rw [show (rest.map fun c => if c = '…' then '.' else c) = subEllipsis rest from rfl,
      ih ht]

theorem subInitialDot1_id : ∀ {p2 p1 : Option Char} {l : List Char},
    charFree isUpper l → (∀ a, p1 = some a → isUpper a = false) →
    subInitialDot1 p2 p1 l = l := by
  intro p2 p1 l
  induction l generalizing p2 p1 with
  | nil =>
    intro _ _
    rw [subInitialDot1]
  | cons c rest ih =>
    intro h hp
    rw [subInitialDot1]
    have hcond : (c = '.' && p2 = some '.' && p1.any isUpper) = false := by
      cases p1 with
      | none => simp
      | some a =>
        have ha := hp a rfl
        simp [ha]
    rw [hcond, if_neg (by simp)]
    congr 1
    exact ih (charFree_subset (fun d hd => List.mem_cons_of_mem c hd) h)
      (fun a ha => by
        injection ha with ha
        rw [← ha]
        exact h c (List.mem_cons_self c rest))

theorem subInitialDot2_id : ∀ {p1 : Option Char} {l : List Char},
    charFree isUpper l → (∀ a, p1 = some a → isUpper a = false) →
    subInitialDot2 p1 l = l := by
  intro p1 l
  induction l generalizing p1 with
  | nil =>
    intro _ _
    rw [subInitialDot2]
  | cons c rest ih =>
    intro h hp
    rw [subInitialDot2]
    have hcond : (c = '.' && p1.any isUpper && rest.head?.any isUpper) = false := by
      cases p1 with
      | none => simp
      | some a =>
        have ha := hp a rfl
        simp [ha]
    rw [hcond, if_neg (by simp)]
    congr 1
    exact ih (charFree_subset (fun d hd => List.mem_cons_of_mem c hd) h)
      (fun a ha => by
        injection ha with ha
        rw [← ha]
        exact h c (List.mem_cons_self c rest))

theorem collapseRun_id {p : Char} : ∀ {l : List Char},
    noPairB (pairRun p) l = true → collapseRun p l = l := by
  intro l
  induction l with
  | nil => intro _; rfl
  | cons c rest ih =>
    intro h
    rw [collapseRun]
    have hcond : (c = p && rest.head? = some p) = false := by
      cases hC : (c = p && rest.head? = some p)
      · rfl
      · exfalso
        have h2 := band_split hC
        have hc : c = p := by simpa using h2.1
        have hh : rest.head? = some p := by simpa using h2.2
        cases rest with
        | nil => cases hh
        | cons d r =>
          injection hh with hh
          rw [noPairB] at h
          have h3 := (band_split h).1
          simp only [pairRun] at h3
          simp [hc, hh] at h3
    rw [hcond, if_neg (by simp)]
    congr 1
    exact ih (noPairB_tail h)

theorem subPunctSpace_id : ∀ {p1 : Option Char} {l : List Char},
    noPairB pairPunctSpace (withPrev p1 l) = true → subPunctSpace p1 l = l := by
  intro p1 l
  induction l generalizing p1 with
  | nil =>
    intro _
    rw [subPunctSpace]
  | cons c rest ih =>
    intro h
    have htail : noPairB pairPunctSpace (c :: rest) = true := by
      cases p1 with
      | none => exact h
      | some a =>
        exact noPairB_tail (show noPairB pairPunctSpace (a :: c :: rest) = true from h)
    rw [subPunctSpace]
    have hcond : ((c = ' ' || c = ',') && p1.any isPunctMark) = false := by
      cases p1 with
      | none => simp
      | some a =>
        cases hC : ((c = ' ' || c = ',') && (some a).any isPunctMark)
        · rfl
        · exfalso
          have h2 := band_split hC
          have hpa : isPunctMark a = true := by simpa using h2.2
          have h' : noPairB pairPunctSpace (a :: c :: rest) = true := h
          rw [noPairB] at h'
          have h3 := (band_split h').1
          simp only [pairPunctSpace] at h3
          simp [hpa, h2.1] at h3
    rw [hcond, if_neg (by simp)]
    congr 1
    exact ih htail

theorem subHangPunctHang_id : ∀ {p1 : Option Char} {l : List Char},
    noTripleB tripleHPH (withPrev p1 l) = true → subHangPunctHang p1 l = l := by
  intro p1 l
  induction l generalizing p1 with
  | nil =>
    intro _
    rw [subHangPunctHang]
  | cons c rest ih =>
    intro h
    have htail : noTripleB tripleHPH (c :: rest) = true := by
      cases p1 with
      | none => exact h
      | some a =>
        exact noTripleB_tail (show noTripleB tripleHPH (a :: c :: rest) = true from h)
    rw [subHangPunctHang]
    have hcond : (isPunctMark c && p1.any isHang && rest.head?.any isHang) = false := by
      cases hC : (isPunctMark c && p1.any isHang && rest.head?.any isHang)
      · rfl
      · exfalso
        have h2 := band_split hC
        have h3 := band_split h2.1
        cases p1 with
        | none => exact absurd h3.2 (by simp)
        | some a =>
          have ha : isHang a = true := by simpa using h3.2
          cases rest with
          | nil => exact absurd h2.2 (by simp)
          | cons d r =>
            have hd : isHang d = true := by simpa using h2.2
            have h' : noTripleB tripleHPH (a :: c :: d :: r) = true := h
            rw [noTripleB] at h'
            have h4 := (band_split h').1
            simp only [tripleHPH] at h4
            simp [ha, h3.1, hd] at h4
    rw [hcond, if_neg (by simp)]
    congr 1
    exact ih htail

theorem splitlinesGo_cons (cur : List Char) (c : Char) (rest : List Char)
    (hno : ∀ r2, ¬(c = '\r' ∧ rest = '\n' :: r2)) :
    splitlinesGo cur (c :: rest) =
      if isLineBrk c then
        cur.reverse :: (if rest.isEmpty then [] else splitlinesGo [] rest)
      else splitlinesGo (c :: cur) rest := by
  rw [splitlinesGo.eq_def]
  split
  · rename_i heq
    cases heq
  · rename_i rest2 heq
    injection heq with h1 h2
    exact absurd ⟨h1, h2⟩ (hno rest2)
  · rename_i c2 rest2 hnx heq
    injection heq with h1 h2
    subst h1
    subst h2
    rfl

theorem splitlinesGo_mem : ∀ (acc rest : List Char), ∀ s,
    (∀ c ∈ acc, isLineBrk c = false) → s ∈ splitlinesGo acc rest →
    s <:+: acc.reverse ++ rest ∧ ∀ c ∈ s, isLineBrk c = false := by
  intro acc rest
  induction acc, rest using splitlinesGo.induct with
  | case1 cur =>
    intro s hacc hs
    rw [splitlinesGo] at hs
    have hs2 : s = cur.reverse := by simpa using hs
    subst hs2
    refine ⟨⟨[], [], by simp⟩, ?_⟩
    intro c hc
    exact hacc c (by simpa using hc)
  | case2 cur rest ih =>
    intro s hacc hs
    rw [splitlinesGo] at hs
    rcases List.mem_cons.mp hs with h | h
    · subst h
      refine ⟨⟨[], '\r' :: '\n' :: rest, by simp⟩, ?_⟩
      intro c hc
      exact hacc c (by simpa using hc)
    · by_cases he : rest.isEmpty
      · rw [if_pos he] at h
        cases h
      · rw [if_neg he] at h
        obtain ⟨hinf, hfree⟩ := ih s (by intro c hc; cases hc) h
        refine ⟨?_, hfree⟩
        have h2 : s <:+: rest := by simpa using hinf
        exact h2.trans ⟨cur.reverse ++ ['\r', '\n'], [], by simp⟩
  | case3 cur c rest hno hbrk ih =>
    intro s hacc hs
    rw [splitlinesGo_cons cur c rest (fun r2 hpair => hno r2 hpair.1 hpair.2),
      if_pos hbrk] at hs
    rcases List.mem_cons.mp hs with h | h
    · subst h
      refine ⟨⟨[], c :: rest, by simp⟩, ?_⟩
      intro d hd
      exact hacc d (by simpa using hd)
    · by_cases he : rest.isEmpty
      · rw [if_pos he] at h
        cases h
      · rw [if_neg he] at h
        obtain ⟨hinf, hfree⟩ := ih s (by intro d hd; cases hd) h
        refine ⟨?_, hfree⟩
        have h2 : s <:+: rest := by simpa using hinf
        exact h2.trans ⟨cur.reverse ++ [c], [], by simp⟩
  | case4 cur c rest hno hnb ih =>
    intro s hacc hs
    rw [splitlinesGo_cons cur c rest (fun r2 hpair => hno r2 hpair.1 hpair.2),
      if_neg hnb] at hs
    have hacc2 : ∀ d ∈ c :: cur, isLineBrk d = false := by
      intro d hd
      rcases List.mem_cons.mp hd with h2 | h2
      · rw [h2]
        simpa using hnb
      · exact hacc d h2
    obtain ⟨hinf, hfree⟩ := ih s hacc2 hs
    refine ⟨?_, hfree⟩
    have he : (c :: cur).reverse ++ rest = cur.reverse ++ c :: rest := by simp
    rw [he] at hinf
    exact hinf

theorem splitlines_mem {l s : List Char} (h : s ∈ splitlines l) :
    s <:+: l ∧ ∀ c ∈ s, isLineBrk c = false := by
  cases l with
  | nil =>
    rw [splitlines] at h
    cases h
  | cons a t =>
    have h2 : s ∈ splitlinesGo [] (a :: t) := h
    obtain ⟨hinf, hfree⟩ := splitlinesGo_mem [] (a :: t) s (by intro c hc; cases hc) h2
    exact ⟨by simpa using hinf, hfree⟩

theorem splitlinesGo_nobrk : ∀ (acc rest : List Char),
    (∀ c ∈ rest, isLineBrk c = false) →
    splitlinesGo acc rest = [acc.reverse ++ rest] := by
  intro acc rest
  induction acc, rest using splitlinesGo.induct with
  | case1 cur =>
    intro _
    rw [splitlinesGo]
    simp
  | case2 cur rest ih =>
    intro hfree
    exact absurd (hfree '\r' (by simp)) (by decide)
  | case3 cur c rest hno hbrk ih =>
    intro hfree
    exact absurd (hfree c (by simp)) (by rw [hbrk]; simp)
  | case4 cur c rest hno hnb ih =>
    intro hfree
    rw [splitlinesGo_cons cur c rest (fun r2 hpair => hno r2 hpair.1 hpair.2),
      if_neg hnb]
    rw [ih (fun d hd => hfree d (List.mem_cons_of_mem c hd))]
    simp

theorem splitlines_nobrk {l : List Char} (hne : l ≠ [])
    (hfree : ∀ c ∈ l, isLineBrk c = false) : splitlines l = [l] := by
  cases l with
  | nil => exact absurd rfl hne
  | cons a t =>
    have h2 : splitlines (a :: t) = splitlinesGo [] (a :: t) := rfl
    rw [h2, splitlinesGo_nobrk [] (a :: t) hfree]
    simp

theorem subEllipsis_free (l : List Char) : charFree (fun c => c = '…') (subEllipsis l) := by
  intro c hc
  rw [subEllipsis, List.mem_map] at hc
  obtain ⟨x, hx, hxc⟩ := hc
  by_cases hxe : x = '…'
  · rw [if_pos hxe] at hxc
    rw [← hxc]
    simp
  · rw [if_neg hxe] at hxc
    rw [← hxc]
    simpa using hxe

theorem subEllipsis_upper {l : List Char} (h : charFree isUpper l) :
    charFree isUpper (subEllipsis l) := by
  intro c hc
  rcases subEllipsis_chars hc with h2 | h2
  · exact h c h2
  · rw [h2]
    decide

theorem charFree_dot1 {S : Char → Bool} {p2 p1 : Option Char} {l : List Char}
    (h : charFree S l) : charFree S (subInitialDot1 p2 p1 l) :=
  fun c hc => h c (subInitialDot1_chars hc)

theorem charFree_dot2 {S : Char → Bool} {p1 : Option Char} {l : List Char}
    (h : charFree S l) : charFree S (subInitialDot2 p1 l) :=
  fun c hc => h c (subInitialDot2_chars hc)

theorem charFree_collapse {S : Char → Bool} {p : Char} {l : List Char}
    (h : charFree S l) : charFree S (collapseRun p l) :=
  fun c hc => h c (collapseRun_chars hc)

theorem charFree_ps {S : Char → Bool} {p1 : Option Char} {l : List Char}
    (hS : S '\n' = false) (h : charFree S l) : charFree S (subPunctSpace p1 l) := by
  intro c hc
  rcases subPunctSpace_chars hc with h2 | h2
  · exact h c h2
  · rw [h2]
    exact hS

theorem charFree_hph {S : Char → Bool} {p1 : Option Char} {l : List Char}
    (hS1 : S '.' = false) (hS2 : S '\n' = false) (h : charFree S l) :
    charFree S (subHangPunctHang p1 l) := by
  intro c hc
  rcases subHangPunctHang_chars hc with h2 | h2 | h2
  · exact h c h2
  · rw [h2]
    exact hS1
  · rw [h2]
    exact hS2

theorem bySentenceLine_settled {line s : List Char}
    (hcf : charFree isUpper line) (hs : s ∈ bySentenceLine line) : settled s := by
  rw [bySentenceLine, List.mem_filter] at hs
  obtain ⟨hmem, hkeep⟩ := hs
  obtain ⟨hinf, hbrkfree⟩ := splitlines_mem hmem
  have hsub : s ⊆ subHangPunctHang none (subPunctSpace none (collapseRun '!'
      (collapseRun '?' (collapseRun '.' (subInitialDot2 none (subInitialDot1 none none
        (subEllipsis line))))))) := hinf.subset
  have e0 : charFree (fun c => c = '…') (subEllipsis line) := subEllipsis_free line
  have u0 : charFree isUpper (subEllipsis line) := subEllipsis_upper hcf
  have e2 : charFree (fun c => c = '…') (subInitialDot2 none (subInitialDot1 none none
      (subEllipsis line))) := charFree_dot2 (charFree_dot1 e0)
  have u2 : charFree isUpper (subInitialDot2 none (subInitialDot1 none none
      (subEllipsis line))) := charFree_dot2 (charFree_dot1 u0)
  have e5 : charFree (fun c => c = '…') (collapseRun '!' (collapseRun '?' (collapseRun '.'
      (subInitialDot2 none (subInitialDot1 none none (subEllipsis line)))))) :=
    charFree_collapse (charFree_collapse (charFree_collapse e2))
  have u5 : charFree isUpper (collapseRun '!' (collapseRun '?' (collapseRun '.'
      (subInitialDot2 none (subInitialDot1 none none (subEllipsis line)))))) :=
    charFree_collapse (charFree_collapse (charFree_collapse u2))
  have e6 : charFree (fun c => c = '…') (subPunctSpace none (collapseRun '!'
      (collapseRun '?' (collapseRun '.' (subInitialDot2 none (subInitialDot1 none none
        (subEllipsis line))))))) := charFree_ps (by simp) e5
  have u6 : charFree isUpper (subPunctSpace none (collapseRun '!'
      (collapseRun '?' (collapseRun '.' (subInitialDot2 none (subInitialDot1 none none
        (subEllipsis line))))))) := charFree_ps (by decide) u5
  have e7 : charFree (fun c => c = '…') (subHangPunctHang none (subPunctSpace none
      (collapseRun '!' (collapseRun '?' (collapseRun '.' (subInitialDot2 none
        (subInitialDot1 none none (subEllipsis line)))))))) :=
    charFree_hph (by simp) (by simp) e6
  have u7 : charFree isUpper (subHangPunctHang none (subPunctSpace none
      (collapseRun '!' (collapseRun '?' (collapseRun '.' (subInitialDot2 none
        (subInitialDot1 none none (subEllipsis line)))))))) :=
    charFree_hph (by decide) (by decide) u6
  have d3 := collapseRun_noPair_self '.' (subInitialDot2 none (subInitialDot1 none none
    (subEllipsis line)))
  have d4 := collapseRun_noPair '?' d3
  have d5 := collapseRun_noPair '!' d4
  have q4 := collapseRun_noPair_self '?' (collapseRun '.' (subInitialDot2 none
    (subInitialDot1 none none (subEllipsis line))))
  have q5 := collapseRun_noPair '!' q4
  have b5 := collapseRun_noPair_self '!' (collapseRun '?' (collapseRun '.'
    (subInitialDot2 none (subInitialDot1 none none (subEllipsis line)))))
  have hnd1 : ∀ y, pairRun '.' '\n' y = false := by
    intro y
    simp [pairRun]
  have hnd2 : ∀ y, pairRun '.' y '\n' = false := by
    intro y
    simp [pairRun]
  have hnq1 : ∀ y, pairRun '?' '\n' y = false := by
    intro y
    simp [pairRun]
  have hnq2 : ∀ y, pairRun '?' y '\n' = false := by
    intro y
    simp [pairRun]
  have hnb1 : ∀ y, pairRun '!' '\n' y = false := by
    intro y
    simp [pairRun]
  have hnb2 : ∀ y, pairRun '!' y '\n' = false := by
    intro y
    simp [pairRun]
  have d6 := noPairB_tail (subPunctSpace_noPair hnd1 hnd2 none _ '\n' (Or.inl rfl) d5)
  have q6 := noPairB_tail (subPunctSpace_noPair hnq1 hnq2 none _ '\n' (Or.inl rfl) q5)
  have b6 := noPairB_tail (subPunctSpace_noPair hnb1 hnb2 none _ '\n' (Or.inl rfl) b5)
  have ps6 := noPairB_tail (subPunctSpace_estab none (collapseRun '!' (collapseRun '?'
    (collapseRun '.' (subInitialDot2 none (subInitialDot1 none none
      (subEllipsis line)))))) '\n' (Or.inl rfl))
  have hhd : ∀ y, isHang y = true → pairRun '.' y '.' = false := by
    intro y hy
    have hp := hang_not_punct hy
    have : ¬ y = '.' := by
      intro e
      rw [e, isPunctMark] at hp
      simp at hp
    simp [pairRun, this]
  have hhq : ∀ y, isHang y = true → pairRun '?' y '.' = false := by
    intro y _
    simp [pairRun]
  have hhb : ∀ y, isHang y = true → pairRun '!' y '.' = false := by
    intro y _
    simp [pairRun]
  have hhps : ∀ y, isHang y = true → pairPunctSpace y '.' = false := by
    intro y hy
    simp [pairPunctSpace, hang_not_punct hy]
  have hnps1 : ∀ y, pairPunctSpace '\n' y = false := by
    intro y
    simp [pairPunctSpace, isPunctMark]
  have hnps2 : ∀ y, pairPunctSpace y '\n' = false := by
    intro y
    simp [pairPunctSpace]
  have d7 := noPairB_tail (subHangPunctHang_noPair hnd1 hnd2 hhd none _ '\n' (Or.inl rfl) d6)
  have q7 := noPairB_tail (subHangPunctHang_noPair hnq1 hnq2 hhq none _ '\n' (Or.inl rfl) q6)
  have b7 := noPairB_tail (subHangPunctHang_noPair hnb1 hnb2 hhb none _ '\n' (Or.inl rfl) b6)
  have ps7 := noPairB_tail
    (subHangPunctHang_noPair hnps1 hnps2 hhps none _ '\n' (Or.inl rfl) ps6)
  have ph7 := noTripleB_tail (subHangPunctHang_estab none (subPunctSpace none
    (collapseRun '!' (collapseRun '?' (collapseRun '.' (subInitialDot2 none
      (subInitialDot1 none none (subEllipsis line))))))) '\n' (Or.inl rfl))
  refine ⟨charFree_subset hsub e7, charFree_subset hsub u7, noPairB_infix hinf d7,
    noPairB_infix hinf q7, noPairB_infix hinf b7, noPairB_infix hinf ps7,
    noTripleB_infix hinf ph7, hbrkfree, hkeep⟩

theorem bySentenceLine_settled_id {s : List Char} (h : settled s) :
    bySentenceLine s = [s] := by
  obtain ⟨he, hu, hd, hq, hb, hps, hph, hbrk, hkeep⟩ := h
  rw [bySentenceLine]
  rw [subEllipsis_id he]
  rw [subInitialDot1_id hu (fun a ha => by cases ha)]
  rw [subInitialDot2_id hu (fun a ha => by cases ha)]
  rw [collapseRun_id hd, collapseRun_id hq, collapseRun_id hb]
  rw [subPunctSpace_id (show noPairB pairPunctSpace (withPrev none s) = true from hps)]
  rw [subHangPunctHang_id (show noTripleB tripleHPH (withPrev none s) = true from hph)]
  have hne : s ≠ [] := by
    intro hnil
    rw [hnil] at hkeep
    exact absurd hkeep (by decide)
  rw [splitlines_nobrk hne hbrk]
  simp [List.filter, hkeep]

theorem bySentence_settled_id : ∀ {out : List (List Char)},
    (∀ s ∈ out, settled s) → bySentence out = out := by
  intro out
  induction out with
  | nil => intro _; rfl
  | cons s rest ih =>
    intro h
    rw [bySentence, List.flatMap_cons]
    rw [bySentenceLine_settled_id (h s (List.mem_cons_self s rest))]
    rw [show rest.flatMap bySentenceLine = bySentence rest from rfl,
      ih (fun t ht => h t (List.mem_cons_of_mem s ht))]
    rfl

theorem bySentence_members_settled {corpus : List (List Char)}
    (hcf : ∀ line ∈ corpus, charFree isUpper line) :
    ∀ s ∈ bySentence corpus, settled s := by
  intro s hs
  rw [bySentence, List.mem_flatMap] at hs
  obtain ⟨line, hline, hsl⟩ := hs
  exact bySentenceLine_settled (hcf line hline) hsl

/-- C2 counterexample: `bySentence` is not idempotent.  On the line `A..B`
the first pass only collapses the doubled period (no capital-lookbehind
rule fires on `A..`), giving `A.B`; the second pass then deletes the
period between the two capitals, giving `AB`. -/
theorem bySentence_counterexample :
    bySentence (bySentence [("A..B".toList)]) ≠ bySentence [("A..B".toList)] := by
  decide

/-- C2 (amended): on corpora whose lines contain no capital Latin letter,
the segmenter is idempotent: every segment the first pass emits is left
unchanged by every rewrite of the second pass (no ellipsis, no doubled
punctuation, no space or comma after sentence punctuation, no punctuation
between Korean syllables, no line break survives the first pass, and the
capital-dependent initial-letter rules cannot fire), so re-running
`bySentence` on its own output returns it verbatim.  On lines with
capitals idempotence fails, witness `A..B`. -/
theorem bySentence_idem (corpus : List (List Char))
    (hcf : ∀ line ∈ corpus, ∀ c ∈ line, isUpper c = false) :
    bySentence (bySentence corpus) = bySentence corpus :=
  bySentence_settled_id (bySentence_members_settled hcf)

/-- C2 witness: idempotence at a concrete Korean two-sentence corpus. -/
theorem bySentence_idem_witness :
    bySentence (bySentence [("안녕하세요. 반갑습니다! 정말?".toList)]) =
      bySentence [("안녕하세요. 반갑습니다! 정말?".toList)] :=
  bySentence_idem [("안녕하세요. 반갑습니다! 정말?".toList)] (by decide)

end KoLM

